import Mathlib

/-!
Verification of the basket-analysis core of the repository.

The Python source keeps its state in dictionaries (insertion-ordered).
We model a dictionary as an association list: lookup returns the first
binding, writing updates the first binding in place or appends a fresh
binding at the end, deletion removes the binding — exactly the observable
behaviour of a Python dict whose keys are never duplicated.
-/

namespace BasketAnalysis

set_option linter.unusedSectionVars false

section DictModel

variable {α : Type} {β : Type} [DecidableEq α]

/-- Python dict read d.get(k) / k in d: first binding of the key, if any. -/
def alookup : List (α × β) → α → Option β
  | [], _ => none
  | (k, v) :: rest, x => if x = k then some v else alookup rest x

/-- Python dict write d[k] = v: replace the first binding in place,
or append a new binding at the end (insertion order). -/
def aset : List (α × β) → α → β → List (α × β)
  | [], x, w => [(x, w)]
  | (k, v) :: rest, x, w => if x = k then (k, w) :: rest else (k, v) :: aset rest x w

/-- Python dict delete (del d[k]): drop the first binding of the key. -/
def aerase : List (α × β) → α → List (α × β)
  | [], _ => []
  | (k, v) :: rest, x => if x = k then rest else (k, v) :: aerase rest x

/-- The keys of a dict, in order. -/
def akeys (l : List (α × β)) : List α := l.map Prod.fst

@[simp]
theorem akeys_nil : akeys ([] : List (α × β)) = [] := rfl

@[simp]
theorem akeys_cons (k : α) (v : β) (rest : List (α × β)) :
    akeys ((k, v) :: rest) = k :: akeys rest := rfl

@[simp]
theorem akeys_append (l₁ l₂ : List (α × β)) :
    akeys (l₁ ++ l₂) = akeys l₁ ++ akeys l₂ := by
  simp [akeys]

theorem alookup_eq_none {l : List (α × β)} {x : α} :
    alookup l x = none ↔ x ∉ akeys l := by
  induction l with
  | nil => simp [alookup]
  | cons e rest ih =>
    obtain ⟨k, v⟩ := e
    by_cases h : x = k <;> simp [alookup, h, ih]

theorem alookup_isSome {l : List (α × β)} {x : α} :
    (alookup l x).isSome = true ↔ x ∈ akeys l := by
  rw [Option.isSome_iff_ne_none, Ne, alookup_eq_none, not_not]

theorem alookup_aset_self (l : List (α × β)) (x : α) (w : β) :
    alookup (aset l x w) x = some w := by
  induction l with
  | nil => simp [aset, alookup]
  | cons e rest ih =>
    obtain ⟨k, v⟩ := e
    by_cases h : x = k <;> simp [aset, alookup, h, ih]

theorem alookup_aset_ne (l : List (α × β)) {x y : α} (w : β) (hxy : y ≠ x) :
    alookup (aset l x w) y = alookup l y := by
  induction l with
  | nil => simp [aset, alookup, hxy]
  | cons e rest ih =>
    obtain ⟨k, v⟩ := e
    by_cases h : x = k
    · subst h
      simp [aset, alookup, hxy]
    · by_cases h2 : y = k <;> simp [aset, alookup, h, h2, ih]

theorem mem_akeys_aset {l : List (α × β)} {x y : α} {w : β} :
    y ∈ akeys (aset l x w) ↔ y ∈ akeys l ∨ y = x := by
  induction l with
  | nil => simp [aset]
  | cons e rest ih =>
    obtain ⟨k, v⟩ := e
    by_cases h : x = k
    · subst h
      simp [aset]
      tauto
    · simp [aset, h] at ih ⊢
      tauto

theorem akeys_aset_of_mem {l : List (α × β)} {x : α} (w : β) (hx : x ∈ akeys l) :
    akeys (aset l x w) = akeys l := by
  induction l with
  | nil => simp at hx
  | cons e rest ih =>
    obtain ⟨k, v⟩ := e
    by_cases h : x = k
    · subst h
      simp [aset]
    · simp [h] at hx
      simp [aset, h, ih hx]

theorem akeys_aset_of_not_mem {l : List (α × β)} {x : α} (w : β) (hx : x ∉ akeys l) :
    akeys (aset l x w) = akeys l ++ [x] := by
  induction l with
  | nil => simp [aset]
  | cons e rest ih =>
    obtain ⟨k, v⟩ := e
    simp at hx
    simp [aset, hx.1, ih hx.2]

theorem akeys_aerase {l : List (α × β)} {x : α} :
    akeys (aerase l x) = (akeys l).erase x := by
  induction l with
  | nil => simp [aerase]
  | cons e rest ih =>
    obtain ⟨k, v⟩ := e
    by_cases h : x = k
    · subst h
      simp [aerase, List.erase_cons_head]
    · simp [aerase, h, ih, List.erase_cons_tail, Ne.symm h]

theorem alookup_aerase_ne (l : List (α × β)) {x y : α} (hxy : y ≠ x) :
    alookup (aerase l x) y = alookup l y := by
  induction l with
  | nil => simp [aerase]
  | cons e rest ih =>
    obtain ⟨k, v⟩ := e
    by_cases h : x = k
    · subst h
      simp [aerase, alookup, hxy]
    · by_cases h2 : y = k <;> simp [aerase, alookup, h, h2, ih]

theorem alookup_aerase_self {l : List (α × β)} {x : α} (h : (akeys l).Nodup) :
    alookup (aerase l x) x = none := by
  induction l with
  | nil => simp [aerase, alookup]
  | cons e rest ih =>
    obtain ⟨k, v⟩ := e
    simp at h
    by_cases hx : x = k
    · subst hx
      simp [aerase, alookup_eq_none]
      exact h.1
    · simp [aerase, alookup, hx]
      exact ih h.2

theorem nodup_akeys_aset {l : List (α × β)} {x : α} {w : β} (h : (akeys l).Nodup) :
    (akeys (aset l x w)).Nodup := by
  by_cases hx : x ∈ akeys l
  · rwa [akeys_aset_of_mem w hx]
  · rw [akeys_aset_of_not_mem w hx]
    simpa [List.nodup_append] using ⟨h, hx⟩

theorem nodup_akeys_aerase {l : List (α × β)} {x : α} (h : (akeys l).Nodup) :
    (akeys (aerase l x)).Nodup := by
  rw [akeys_aerase]
  exact h.erase x

theorem alookup_append_left {l₁ l₂ : List (α × β)} {x : α} (h : x ∈ akeys l₁) :
    alookup (l₁ ++ l₂) x = alookup l₁ x := by
  induction l₁ with
  | nil => simp at h
  | cons e rest ih =>
    obtain ⟨k, v⟩ := e
    by_cases hx : x = k
    · simp [alookup, hx]
    · simp [hx] at h
      simp [alookup, hx, ih h]

theorem alookup_mem {l : List (α × β)} {x : α} {v : β} (h : alookup l x = some v) :
    (x, v) ∈ l := by
  induction l with
  | nil => simp [alookup] at h
  | cons e rest ih =>
    obtain ⟨k, w⟩ := e
    by_cases hx : x = k
    · subst hx
      simp [alookup] at h
      simp [h]
    · simp [alookup, hx] at h
      simp [ih h]

theorem alookup_append_right {l₁ l₂ : List (α × β)} {x : α} (h : x ∉ akeys l₁) :
    alookup (l₁ ++ l₂) x = alookup l₂ x := by
  induction l₁ with
  | nil => simp
  | cons e rest ih =>
    obtain ⟨k, v⟩ := e
    simp at h
    simp [alookup, h.1, ih h.2]

theorem alookup_of_mem_nodup {l : List (α × β)} {k : α} {v : β}
    (hnd : (akeys l).Nodup) (h : (k, v) ∈ l) : alookup l k = some v := by
  induction l with
  | nil => simp at h
  | cons e rest ih =>
    obtain ⟨k2, v2⟩ := e
    simp at hnd
    rcases List.mem_cons.mp h with h1 | h1
    · obtain ⟨rfl, rfl⟩ := Prod.mk.injEq .. ▸ h1
      simp [alookup]
    · have hk : k ≠ k2 := by
        rintro rfl
        exact hnd.1 (by simpa [akeys] using List.mem_map_of_mem Prod.fst h1)
      simp [alookup, hk, ih hnd.2 h1]

theorem aerase_sublist (l : List (α × β)) (x : α) : (aerase l x).Sublist l := by
  induction l with
  | nil => simp [aerase]
  | cons e rest ih =>
    obtain ⟨k, v⟩ := e
    by_cases h : x = k
    · simp [aerase, h]
    · simp only [aerase, if_neg h]
      exact ih.cons₂ (k, v)

end DictModel

section Graph

variable {α : Type} [DecidableEq α]

/-!
## The product graph (src/basket_analysis/graph.py)

ProductGraph keeps an adjacency dict-of-dicts (self.graph, a defaultdict:
reading a missing key materialises an empty inner dict) together with a
set of nodes (self.nodes).  Weights are Python ints.
-/

/-- State of graph.py's ProductGraph: self.graph (adjacency dict of dicts)
and self.nodes (a set). -/
structure ProductGraph (α : Type) where
  graph : List (α × List (α × ℤ))
  nodes : Finset α

/-- ProductGraph.__init__: empty adjacency, no nodes. -/
def emptyGraph : ProductGraph α := ⟨[], ∅⟩

/-- Reading self.graph[k] on the defaultdict: returns the stored inner dict,
or materialises (appends) an empty one for a missing key.  Returns the inner
dict together with the possibly-extended outer dict. -/
def dict_read (G : List (α × List (α × ℤ))) (k : α) :
    List (α × ℤ) × List (α × List (α × ℤ)) :=
  match alookup G k with
  | some adj => (adj, G)
  | none => ([], G ++ [(k, [])])

/-- ProductGraph.add_node. -/
def add_node (g : ProductGraph α) (item : α) : ProductGraph α :=
  if item ∈ g.nodes then g
  else
    { nodes := insert item g.nodes
      graph := if item ∈ akeys g.graph then g.graph else g.graph ++ [(item, [])] }

/-- The Python statement pair "if m in graph[k]: graph[k][m] += w else:
graph[k][m] = w", including the defaultdict materialisation of graph[k];
the two branches collapse to "stored-or-zero plus w". -/
def bump (G : List (α × List (α × ℤ))) (k m : α) (w : ℤ) :
    List (α × List (α × ℤ)) :=
  let r := dict_read G k
  aset r.2 k (aset r.1 m ((alookup r.1 m).getD 0 + w))

/-- ProductGraph.add_edge: ensure both nodes, then increment (or create)
the stored weight in both directions. -/
def add_edge (g : ProductGraph α) (item1 item2 : α) (weight : ℤ) : ProductGraph α :=
  let g1 := add_node (add_node g item1) item2
  { nodes := g1.nodes
    graph := bump (bump g1.graph item1 item2 weight) item2 item1 weight }

/-- ProductGraph.get_neighbors: the inner dict if the item is a key, else empty. -/
def get_neighbors (g : ProductGraph α) (item : α) : List (α × ℤ) :=
  (alookup g.graph item).getD []

/-- ProductGraph.get_edge_weight: stored weight, or 0 when either level misses. -/
def get_edge_weight (g : ProductGraph α) (item1 item2 : α) : ℤ :=
  match alookup g.graph item1 with
  | some adj => (alookup adj item2).getD 0
  | none => 0

/-- ProductGraph.get_all_nodes. -/
def get_all_nodes (g : ProductGraph α) : Finset α := g.nodes

/-- ProductGraph.get_node_count. -/
def get_node_count (g : ProductGraph α) : ℕ := g.nodes.card

/-- ProductGraph.get_edge_count: half the total adjacency size (floor). -/
def get_edge_count (g : ProductGraph α) : ℕ :=
  (g.graph.map (fun e => e.2.length)).sum / 2

/-- ProductGraph.get_degree. -/
def get_degree (g : ProductGraph α) (item : α) : ℕ :=
  match alookup g.graph item with
  | some adj => adj.length
  | none => 0

/-- ProductGraph.has_edge. -/
def has_edge (g : ProductGraph α) (item1 item2 : α) : Bool :=
  match alookup g.graph item1 with
  | some adj => item2 ∈ akeys adj
  | none => false

/-- ProductGraph.remove_node: delete the reverse binding held by every
neighbor of the item, then the item's own adjacency entry and node. -/
def remove_node (g : ProductGraph α) (item : α) : ProductGraph α :=
  if item ∉ g.nodes then g
  else
    let r := dict_read g.graph item
    let G1 := (akeys r.1).foldl
      (fun acc nb =>
        if nb ∈ akeys acc ∧ item ∈ akeys ((alookup acc nb).getD []) then
          aset acc nb (aerase ((alookup acc nb).getD []) item)
        else acc) r.2
    { nodes := g.nodes.erase item, graph := aerase G1 item }

/-- Python min over the multiset of degrees, with the source's
"if degrees else 0" fallback; the minimum of a multiset of naturals equals
the minimum over its set of values. -/
def degree_min (g : ProductGraph α) : ℕ :=
  ((g.nodes.image (get_degree g)).min).getD 0

/-- Python max over the multiset of degrees, with the "if degrees else 0"
fallback. -/
def degree_max (g : ProductGraph α) : ℕ :=
  ((g.nodes.image (get_degree g)).max).getD 0

/-- ProductGraph.get_graph_info.  Numeric values are modelled in ℚ;
note the empty-graph branch returns five keys and no density key. -/
def get_graph_info (g : ProductGraph α) : List (String × ℚ) :=
  if g.nodes = ∅ then
    [("num_nodes", 0), ("num_edges", 0), ("avg_degree", 0),
     ("max_degree", 0), ("min_degree", 0)]
  else
    [("num_nodes", (g.nodes.card : ℚ)),
     ("num_edges", (get_edge_count g : ℚ)),
     ("avg_degree", if g.nodes.card = 0 then 0
        else ((g.nodes.sum (fun v => (get_degree g v : ℚ))) / (g.nodes.card : ℚ))),
     ("max_degree", (degree_max g : ℚ)),
     ("min_degree", (degree_min g : ℚ)),
     ("density", if 1 < g.nodes.card then
        (2 * (get_edge_count g : ℚ)) / ((g.nodes.card : ℚ) * ((g.nodes.card : ℚ) - 1))
      else 0)]

end Graph

section Mining

variable {α : Type} [LinearOrder α]

/-!
## Frequent itemset mining (src/basket_analysis/mining.py)

FrequentItemsetMiner is a pure function of its transaction list and its
min_support, so each method is modelled as a function of those two values.
Frozenset keys become Finset keys; a dict of counts is modelled by its key
set together with the counting function that produced the values.
-/

/-- Python sorted(t): a stable sort by the item order. -/
def pysorted (t : List α) : List α := t.insertionSort (fun a b => a ≤ b)

/-- Python int() applied to a real value: truncation toward zero. -/
def pytrunc (q : ℚ) : ℤ := if 0 ≤ q then ⌊q⌋ else ⌈q⌉

/-- FrequentItemsetMiner.__init__: min_support_count =
int(min_support * num_transactions), raised to 1 when below 1. -/
def min_support_count (transactions : List (List α)) (minSupport : ℚ) : ℤ :=
  let c := pytrunc (minSupport * (transactions.length : ℚ))
  if c < 1 then 1 else c

/-- find_frequent_1_itemsets counts one per occurrence of the item:
the value item_counts[frozenset([x])]. -/
def item_count (transactions : List (List α)) (x : α) : ℕ :=
  (transactions.map (fun t => t.count x)).sum

/-- Keys of find_frequent_1_itemsets, identifying the key frozenset([x])
with the item x. -/
def find_frequent_1_itemsets (transactions : List (List α)) (minSupport : ℚ) :
    Finset α :=
  (transactions.flatMap id).toFinset.filter
    (fun x => min_support_count transactions minSupport ≤ (item_count transactions x : ℤ))

/-- frequent_1_items.get(frozenset([x]), 0) in get_association_rules. -/
def frequent_1_get (transactions : List (List α)) (minSupport : ℚ) (x : α) : ℕ :=
  if x ∈ find_frequent_1_itemsets transactions minSupport then
    item_count transactions x
  else 0

/-- The contribution of one transaction to itemset_counts[S] in
find_frequent_k_itemsets: the number of k-combinations of the sorted
transaction whose value set is S.  combinations(l, k) enumerates exactly
the length-k sublists of l. -/
def k_combo_count (t : List α) (k : ℕ) (S : Finset α) : ℕ :=
  if k ≤ t.length then
    ((pysorted t).sublistsLen k).countP (fun c => decide (c.toFinset = S))
  else 0

/-- itemset_counts[S] in find_frequent_k_itemsets. -/
def k_itemset_count (transactions : List (List α)) (k : ℕ) (S : Finset α) : ℕ :=
  (transactions.map (fun t => k_combo_count t k S)).sum

/-- Every key ever inserted into itemset_counts. -/
def k_itemset_keys (transactions : List (List α)) (k : ℕ) : Finset (Finset α) :=
  (transactions.flatMap (fun t =>
    if k ≤ t.length then ((pysorted t).sublistsLen k).map List.toFinset else [])).toFinset

/-- FrequentItemsetMiner.find_frequent_k_itemsets, as its set of keys
(the associated count of key S is k_itemset_count). -/
def find_frequent_k_itemsets (transactions : List (List α)) (minSupport : ℚ) (k : ℕ) :
    Finset (Finset α) :=
  if k < 1 then ∅
  else (k_itemset_keys transactions k).filter
    (fun S => min_support_count transactions minSupport ≤ (k_itemset_count transactions k S : ℤ))

/-- All pair occurrences generated by find_frequent_pairs: for each
transaction with at least two items, the 2-combinations of the sorted
transaction; the tuple key (a, b) is modelled by the length-2 list. -/
def pair_occurrences (transactions : List (List α)) : List (List α) :=
  transactions.flatMap (fun t => if 2 ≤ t.length then (pysorted t).sublistsLen 2 else [])

/-- pair_counts[pr] in find_frequent_pairs. -/
def pair_count (transactions : List (List α)) (pr : List α) : ℕ :=
  (pair_occurrences transactions).count pr

/-- FrequentItemsetMiner.find_frequent_pairs: pair keys with their counts,
filtered by the support-count threshold and sorted by count descending.
dict key enumeration is modelled by deduplicating the occurrence list; the
claims below depend only on membership in the result. -/
def find_frequent_pairs (transactions : List (List α)) (minSupport : ℚ) :
    List (List α × ℕ) :=
  (((pair_occurrences transactions).dedup.filter
      (fun pr => decide (min_support_count transactions minSupport ≤
        (pair_count transactions pr : ℤ)))).map
    (fun pr => (pr, pair_count transactions pr))).insertionSort
    (fun x y => y.2 ≤ x.2)

/-- One rule dictionary produced by get_association_rules. -/
structure Rule (α : Type) where
  antecedent : α
  consequent : α
  support : ℚ
  confidence : ℚ
  lift : ℚ
deriving DecidableEq

/-- One direction x → y of rule generation from a frequent pair with count
pc; cx is the antecedent x's frequent-1 count, cy the consequent y's.
A Python ZeroDivisionError is modelled as none: the code guards the
confidence division (0 < cx) but not the division by the number of
transactions nor the lift denominator, which uses the consequent's
possibly-zero count. -/
def rule_direction (N : ℚ) (pc : ℕ) (x y : α) (cx cy : ℕ) (minConfidence : ℚ) :
    Option (List (Rule α)) :=
  if 0 < cx then
    let confidence : ℚ := (pc : ℚ) / (cx : ℚ)
    if minConfidence ≤ confidence then
      if N = 0 then none
      else if ((cx : ℚ) / N) * ((cy : ℚ) / N) = 0 then none
      else some [{ antecedent := x, consequent := y,
                   support := (pc : ℚ) / N,
                   confidence := confidence,
                   lift := ((pc : ℚ) / N) / (((cx : ℚ) / N) * ((cy : ℚ) / N)) }]
    else some []
  else some []

/-- One iteration of the rule loop of get_association_rules: process the
two directions of one frequent pair, extending the accumulated rule list
(none propagates an earlier ZeroDivisionError). -/
def rules_step (transactions : List (List α)) (minSupport minConfidence : ℚ) :
    Option (List (Rule α)) → List α × ℕ → Option (List (Rule α)) := fun acc e =>
  acc.bind (fun rs =>
    match e with
    | ([i1, i2], pc) =>
      (rule_direction (transactions.length : ℚ) pc i1 i2
          (frequent_1_get transactions minSupport i1)
          (frequent_1_get transactions minSupport i2) minConfidence).bind (fun r1 =>
        (rule_direction (transactions.length : ℚ) pc i2 i1
            (frequent_1_get transactions minSupport i2)
            (frequent_1_get transactions minSupport i1) minConfidence).map (fun r2 =>
          rs ++ r1 ++ r2))
    | _ => none)

/-- FrequentItemsetMiner.get_association_rules; none models an uncaught
ZeroDivisionError.  Both directions of every frequent pair are evaluated
in turn and the surviving rules sorted by confidence descending. -/
def get_association_rules (transactions : List (List α))
    (minSupport minConfidence : ℚ) : Option (List (Rule α)) :=
  ((find_frequent_pairs transactions minSupport).foldl
    (rules_step transactions minSupport minConfidence)
    (some [])).map
    (fun rs => rs.insertionSort (fun r1 r2 => r2.confidence ≤ r1.confidence))

end Mining

section Algorithms

variable {α : Type} [DecidableEq α]

/-!
## Graph algorithms (src/basket_analysis/algorithms.py)

bfs and find_path are while-loops over a deque.  Both are modelled by a
recursive loop function on (visited, queue); termination is by the pair
(unvisited vertices of the graph, queue length).
-/

/-- Finite universe of vertices a traversal of g can ever enqueue:
adjacency keys together with every neighbor name appearing in g. -/
def gvertices (g : ProductGraph α) : Finset α :=
  (akeys g.graph).toFinset ∪ (g.graph.flatMap (fun e => akeys e.2)).toFinset

theorem neighbor_mem_gvertices {g : ProductGraph α} {v z : α}
    (h : z ∈ akeys (get_neighbors g v)) : z ∈ gvertices g := by
  unfold get_neighbors at h
  rcases hv : alookup g.graph v with _ | adj
  · rw [hv] at h
    simp [akeys] at h
  · rw [hv] at h
    have hmem : (v, adj) ∈ g.graph := alookup_mem hv
    unfold gvertices
    rw [Finset.mem_union]
    refine Or.inr ?_
    rw [List.mem_toFinset, List.mem_flatMap]
    exact ⟨(v, adj), hmem, by simpa using h⟩

theorem get_neighbors_of_not_mem_gvertices {g : ProductGraph α} {v : α}
    (h : v ∉ gvertices g) : get_neighbors g v = [] := by
  unfold gvertices at h
  rw [Finset.mem_union, not_or] at h
  obtain ⟨h1, -⟩ := h
  rw [List.mem_toFinset] at h1
  unfold get_neighbors
  rw [alookup_eq_none.mpr h1]
  rfl


theorem sdiff_card_lt_of_mem {S visited : Finset α} {v : α}
    (hv : v ∈ S) (hnv : v ∉ visited) :
    (S \ insert v visited).card < (S \ visited).card := by
  apply Finset.card_lt_card
  rw [Finset.ssubset_iff_of_subset
    (Finset.sdiff_subset_sdiff (le_refl S) (Finset.subset_insert v visited))]
  exact ⟨v, by simp [hv, hnv], by simp⟩

theorem sdiff_insert_of_not_mem {S visited : Finset α} {v : α} (hv : v ∉ S) :
    S \ insert v visited = S \ visited := by
  ext x
  simp only [Finset.mem_sdiff, Finset.mem_insert, not_or]
  constructor
  · rintro ⟨hxS, -, hxv⟩
    exact ⟨hxS, hxv⟩
  · rintro ⟨hxS, hxv⟩
    exact ⟨hxS, fun h => hv (h ▸ hxS), hxv⟩

/-- The while-loop of GraphAlgorithms.bfs.  Queue entries are
(item, depth); an entry is skipped when already visited or past the
depth bound, otherwise it is emitted, marked visited, and its unvisited
neighbors enqueued one level deeper. -/
def bfs_loop (g : ProductGraph α) (maxDepth : Option ℕ) :
    Finset α → List (α × ℕ) → List α
  | _, [] => []
  | visited, (v, depth) :: rest =>
    if v ∈ visited then bfs_loop g maxDepth visited rest
    else if (match maxDepth with | some d => decide (d < depth) | none => false) then
      bfs_loop g maxDepth visited rest
    else
      v :: bfs_loop g maxDepth (insert v visited)
        (rest ++ ((akeys (get_neighbors g v)).filter
            (fun z => decide (z ∉ visited))).map (fun z => (z, depth + 1)))
  termination_by visited queue => ((gvertices g \ visited).card, queue.length)
  decreasing_by
  · exact Prod.Lex.right _ (Nat.lt_succ_self _)
  · exact Prod.Lex.right _ (Nat.lt_succ_self _)
  · rename_i hnv _
    by_cases hv : v ∈ gvertices g
    · exact Prod.Lex.left _ _ (sdiff_card_lt_of_mem hv hnv)
    · rw [sdiff_insert_of_not_mem hv, get_neighbors_of_not_mem_gvertices hv]
      simp only [akeys_nil, List.filter_nil, List.map_nil, List.append_nil]
      exact Prod.Lex.right _ (Nat.lt_succ_self _)

/-- GraphAlgorithms.bfs. -/
def bfs (g : ProductGraph α) (startItem : α) (maxDepth : Option ℕ) : List α :=
  if startItem ∉ get_all_nodes g then []
  else bfs_loop g maxDepth ∅ [(startItem, 0)]

/-- The while-loop of GraphAlgorithms.find_path.  Queue entries are
(item, path-from-start); reaching the end item returns its path. -/
def find_path_loop (g : ProductGraph α) (endItem : α) :
    Finset α → List (α × List α) → Option (List α)
  | _, [] => none
  | visited, (v, p) :: rest =>
    if v = endItem then some p
    else if v ∈ visited then find_path_loop g endItem visited rest
    else find_path_loop g endItem (insert v visited)
      (rest ++ ((akeys (get_neighbors g v)).filter
          (fun z => decide (z ∉ visited))).map (fun z => (z, p ++ [z])))
  termination_by visited queue => ((gvertices g \ visited).card, queue.length)
  decreasing_by
  · exact Prod.Lex.right _ (Nat.lt_succ_self _)
  · rename_i hnv
    by_cases hv : v ∈ gvertices g
    · exact Prod.Lex.left _ _ (sdiff_card_lt_of_mem hv hnv)
    · rw [sdiff_insert_of_not_mem hv, get_neighbors_of_not_mem_gvertices hv]
      simp only [akeys_nil, List.filter_nil, List.map_nil, List.append_nil]
      exact Prod.Lex.right _ (Nat.lt_succ_self _)

/-- GraphAlgorithms.find_path: none when either endpoint is unknown,
else run the BFS path loop. -/
def find_path (g : ProductGraph α) (startItem endItem : α) : Option (List α) :=
  if startItem ∉ get_all_nodes g then none
  else if endItem ∉ get_all_nodes g then none
  else find_path_loop g endItem ∅ [(startItem, [startItem])]

/-- GraphAlgorithms.is_connected: a path exists, literally find_path is
not None. -/
def is_connected (g : ProductGraph α) (item1 item2 : α) : Bool :=
  (find_path g item1 item2).isSome

/-- u → z is an edge as the traversals see it: z appears in u's
adjacency dict. -/
def adjacent (g : ProductGraph α) (u z : α) : Prop :=
  z ∈ akeys (get_neighbors g u)

/-- p is a path of the graph from a to b: nonempty, starts at a, ends at
b, consecutive items adjacent. -/
def IsWalk (g : ProductGraph α) (a b : α) (p : List α) : Prop :=
  p.head? = some a ∧ p.getLast? = some b ∧ p.Chain' (adjacent g)

/-- The set of edge counts realised by paths from a to b. -/
def walk_lengths (g : ProductGraph α) (a b : α) : Set ℕ :=
  setOf (fun n => ∃ p, IsWalk g a b p ∧ p.length = n + 1)

/-- Fewest edges over all paths from a to b. -/
noncomputable def dist_edges (g : ProductGraph α) (a b : α) : ℕ :=
  sInf (walk_lengths g a b)

end Algorithms

section GraphLemmas

variable {α : Type} [DecidableEq α]

/-- The weight stored in cell (x, y) of an adjacency dict-of-dicts,
defaulting to 0 at both levels. -/
def wcell (G : List (α × List (α × ℤ))) (x y : α) : ℤ :=
  (alookup ((alookup G x).getD []) y).getD 0

theorem get_edge_weight_eq (g : ProductGraph α) (x y : α) :
    get_edge_weight g x y = wcell g.graph x y := by
  unfold get_edge_weight wcell
  cases alookup g.graph x <;> simp [alookup]

theorem dict_read_fst (G : List (α × List (α × ℤ))) (k : α) :
    (dict_read G k).1 = (alookup G k).getD [] := by
  unfold dict_read
  cases h : alookup G k <;> simp

theorem alookup_dict_read_self (G : List (α × List (α × ℤ))) (k : α) :
    alookup (dict_read G k).2 k = some ((alookup G k).getD []) := by
  unfold dict_read
  cases h : alookup G k with
  | none =>
    simp only
    rw [alookup_append_right (alookup_eq_none.mp h)]
    simp [alookup]
  | some adj => simpa

theorem alookup_dict_read_ne (G : List (α × List (α × ℤ))) {k y : α} (h : y ≠ k) :
    alookup (dict_read G k).2 y = alookup G y := by
  unfold dict_read
  cases hk : alookup G k with
  | none =>
    simp only
    by_cases hy : y ∈ akeys G
    · exact alookup_append_left hy
    · rw [alookup_append_right hy, alookup_eq_none.mpr hy]
      simp [alookup, h]
  | some adj => simp

theorem alookup_bump_self (G : List (α × List (α × ℤ))) (k m : α) (w : ℤ) :
    alookup (bump G k m w) k =
      some (aset ((alookup G k).getD []) m (wcell G k m + w)) := by
  unfold bump
  simp only
  rw [show (dict_read G k).1 = (alookup G k).getD [] from dict_read_fst G k]
  rw [alookup_aset_self]
  rfl

theorem alookup_bump_ne (G : List (α × List (α × ℤ))) {k u : α} (m : α) (w : ℤ)
    (h : u ≠ k) : alookup (bump G k m w) u = alookup G u := by
  unfold bump
  simp only
  rw [alookup_aset_ne _ _ h, alookup_dict_read_ne _ h]

/-- Effect of one bump on every cell. -/
theorem wcell_bump (G : List (α × List (α × ℤ))) (k m : α) (w : ℤ) (x y : α) :
    wcell (bump G k m w) x y =
      wcell G x y + (if x = k ∧ y = m then w else 0) := by
  by_cases hx : x = k
  · subst hx
    unfold wcell
    rw [alookup_bump_self]
    simp only [Option.getD_some]
    by_cases hy : y = m
    · subst hy
      rw [alookup_aset_self]
      simp [wcell]
    · rw [alookup_aset_ne _ _ hy]
      simp [wcell, hy]
  · unfold wcell
    rw [alookup_bump_ne _ _ _ hx]
    simp [hx]

theorem add_node_weight (g : ProductGraph α) (x u v : α) :
    get_edge_weight (add_node g x) u v = get_edge_weight g u v := by
  unfold add_node
  by_cases hx : x ∈ g.nodes
  · simp [hx]
  · simp only [hx, if_false]
    by_cases hk : x ∈ akeys g.graph
    · simp [hk, get_edge_weight]
    · simp only [hk, if_false]
      rw [get_edge_weight_eq, get_edge_weight_eq]
      show wcell (g.graph ++ [(x, [])]) u v = wcell g.graph u v
      unfold wcell
      by_cases hu : u ∈ akeys g.graph
      · rw [alookup_append_left hu]
      · rw [alookup_append_right hu, alookup_eq_none.mpr hu]
        by_cases hux : u = x
        · subst hux
          simp [alookup]
        · simp [alookup, hux]

/-- How one add_edge call changes each stored weight: the (a, b) and
(b, a) cells each gain w (the same cell twice when a = b), every other
cell is untouched. -/
theorem add_edge_weight (g : ProductGraph α) (a b : α) (w : ℤ) (x y : α) :
    get_edge_weight (add_edge g a b w) x y =
      get_edge_weight g x y + (if x = a ∧ y = b then w else 0)
        + (if x = b ∧ y = a then w else 0) := by
  have hnode : ∀ u v : α, get_edge_weight (add_node (add_node g a) b) u v
      = get_edge_weight g u v := by
    intro u v
    rw [add_node_weight, add_node_weight]
  have hcell : ∀ u v : α, wcell (add_node (add_node g a) b).graph u v
      = wcell g.graph u v := by
    intro u v
    rw [← get_edge_weight_eq, ← get_edge_weight_eq, hnode]
  rw [get_edge_weight_eq, get_edge_weight_eq]
  show wcell (bump (bump (add_node (add_node g a) b).graph a b w) b a w) x y = _
  rw [wcell_bump, wcell_bump, hcell]

end GraphLemmas

section Claims1

/-- C6: for every transaction list of length N and every min_support, the
miner's min_support_count equals max(1, floor(min_support × N)), and in
particular is at least 1 even when min_support is 0. -/
theorem C6_min_support_count_eq {α : Type} (transactions : List (List α))
    (minSupport : ℚ) :
    min_support_count transactions minSupport =
        max 1 ⌊minSupport * (transactions.length : ℚ)⌋ ∧
      1 ≤ min_support_count transactions minSupport := by
  have h : min_support_count transactions minSupport =
      max 1 ⌊minSupport * (transactions.length : ℚ)⌋ := by
    unfold min_support_count pytrunc
    by_cases h0 : 0 ≤ minSupport * (transactions.length : ℚ)
    · simp only [h0, if_true]
      rcases le_or_lt 1 ⌊minSupport * (transactions.length : ℚ)⌋ with h1 | h1
      · rw [if_neg (by omega), max_eq_right h1]
      · rw [if_pos (by omega), max_eq_left (by omega)]
    · simp only [h0, if_false]
      have hq : minSupport * (transactions.length : ℚ) < 0 := not_le.mp h0
      have hc : ⌈minSupport * (transactions.length : ℚ)⌉ ≤ 0 := by
        rw [Int.ceil_le]
        push_cast
        linarith
      have hf : ⌊minSupport * (transactions.length : ℚ)⌋ ≤
          ⌈minSupport * (transactions.length : ℚ)⌉ := Int.floor_le_ceil _
      rw [if_pos (by omega), max_eq_left (by omega)]
  exact ⟨h, by rw [h]; exact le_max_left 1 _⟩

/-- C9: adding a self-loop edge (a, a, w) increases get_edge_weight(a, a)
by 2·w, because the single stored cell is incremented once per direction. -/
theorem C9_self_loop_adds_twice {α : Type} [DecidableEq α]
    (g : ProductGraph α) (a : α) (w : ℤ) :
    get_edge_weight (add_edge g a a w) a a = get_edge_weight g a a + 2 * w := by
  rw [add_edge_weight]
  simp only [and_self, if_true]
  ring

/-- C8 counterexample: on the empty graph, get_graph_info returns no
density key at all, so the claim that the mapping always contains a
density key (with value 0 for the empty graph) fails. -/
theorem C8_density_key_missing_empty :
    alookup (get_graph_info (emptyGraph : ProductGraph ℕ)) "density" = none := by
  rfl

/-- C8 amended: get_graph_info always returns the keys num_nodes,
num_edges, avg_degree, max_degree and min_degree; the density key is
present exactly when the graph has at least one node, and then its value
is 2·edge_count/(n·(n−1)) for n > 1 and 0 otherwise.  (The empty graph's
mapping omits the density key.) -/
theorem C8_graph_info_keys {α : Type} [DecidableEq α] (g : ProductGraph α) :
    (alookup (get_graph_info g) "num_nodes").isSome = true ∧
    (alookup (get_graph_info g) "num_edges").isSome = true ∧
    (alookup (get_graph_info g) "avg_degree").isSome = true ∧
    (alookup (get_graph_info g) "max_degree").isSome = true ∧
    (alookup (get_graph_info g) "min_degree").isSome = true ∧
    alookup (get_graph_info g) "density" =
      (if g.nodes = ∅ then none
       else some (if 1 < g.nodes.card then
            (2 * (get_edge_count g : ℚ)) /
              ((g.nodes.card : ℚ) * ((g.nodes.card : ℚ) - 1))
          else 0)) := by
  by_cases h : g.nodes = ∅ <;>
    simp [get_graph_info, h, alookup]

/-- C10: with a repeated item inside a transaction, the keys of
find_frequent_k_itemsets(k) can have fewer than k elements: on the
single transaction [0, 0], k = 2 produces the singleton key with only
one element. -/
theorem C10_undersized_keys :
    ∃ S ∈ find_frequent_k_itemsets ([[0, 0]] : List (List ℕ)) 0 2, S.card < 2 := by
  have hms : min_support_count ([[0, 0]] : List (List ℕ)) 0 = 1 := by
    unfold min_support_count pytrunc
    norm_num
  simp only [find_frequent_k_itemsets, hms]
  decide

end Claims1

section Invariants

variable {α : Type} [DecidableEq α]

/-- The states reachable from the empty graph through ProductGraph's
mutating operations. -/
inductive Reachable : ProductGraph α → Prop where
  | empty : Reachable emptyGraph
  | node {g : ProductGraph α} (item : α) :
      Reachable g → Reachable (add_node g item)
  | edge {g : ProductGraph α} (item1 item2 : α) (w : ℤ) :
      Reachable g → Reachable (add_edge g item1 item2 w)
  | remove {g : ProductGraph α} (item : α) :
      Reachable g → Reachable (remove_node g item)

/-- Structural invariant of every reachable graph state. -/
structure GInv (g : ProductGraph α) : Prop where
  keys_nodup : (akeys g.graph).Nodup
  adj_nodup : ∀ e ∈ g.graph, (akeys e.2).Nodup
  nodes_eq : g.nodes = (akeys g.graph).toFinset
  closed : ∀ u z : α, adjacent g u z → z ∈ g.nodes
  psym : ∀ u z : α, adjacent g u z → adjacent g z u
  wsym : ∀ u z : α, get_edge_weight g u z = get_edge_weight g z u

theorem add_node_nodes (g : ProductGraph α) (x : α) :
    (add_node g x).nodes = insert x g.nodes := by
  unfold add_node
  by_cases h : x ∈ g.nodes <;> simp [h, Finset.insert_eq_self]

theorem get_neighbors_add_node (g : ProductGraph α) (x u : α) :
    get_neighbors (add_node g x) u = get_neighbors g u := by
  unfold add_node
  by_cases hx : x ∈ g.nodes
  · simp [hx]
  · simp only [hx, if_false]
    by_cases hk : x ∈ akeys g.graph
    · simp [hk, get_neighbors]
    · simp only [hk, if_false]
      show (alookup (g.graph ++ [(x, [])]) u).getD [] = get_neighbors g u
      by_cases hu : u ∈ akeys g.graph
      · rw [alookup_append_left hu]
        rfl
      · rw [alookup_append_right hu]
        unfold get_neighbors
        rw [alookup_eq_none.mpr hu]
        by_cases hux : u = x
        · subst hux
          simp [alookup]
        · simp [alookup, hux]

theorem adjacent_add_node (g : ProductGraph α) (x u z : α) :
    adjacent (add_node g x) u z ↔ adjacent g u z := by
  unfold adjacent
  rw [get_neighbors_add_node]

theorem get_neighbors_bump (G : List (α × List (α × ℤ))) (k m : α) (w : ℤ) (u : α) :
    (alookup (bump G k m w) u).getD [] =
      if u = k then aset ((alookup G k).getD []) m (wcell G k m + w)
      else (alookup G u).getD [] := by
  by_cases hu : u = k
  · subst hu
    rw [alookup_bump_self]
    simp
  · rw [alookup_bump_ne _ _ _ hu, if_neg hu]

theorem akeys_bump_of_mem {G : List (α × List (α × ℤ))} {k : α} (m : α) (w : ℤ)
    (hk : k ∈ akeys G) : akeys (bump G k m w) = akeys G := by
  unfold bump
  simp only
  rw [show (dict_read G k).2 = G by
    unfold dict_read
    rcases h : alookup G k with _ | adj
    · exact absurd hk (alookup_eq_none.mp h)
    · simp]
  exact akeys_aset_of_mem _ hk

theorem adjacent_add_edge (g : ProductGraph α) (a b : α) (w : ℤ) (u z : α) :
    adjacent (add_edge g a b w) u z ↔
      adjacent g u z ∨ (u = a ∧ z = b) ∨ (u = b ∧ z = a) := by
  have hstep : ∀ u z : α, adjacent (add_node (add_node g a) b) u z ↔ adjacent g u z := by
    intro u z
    rw [adjacent_add_node, adjacent_add_node]
  show z ∈ akeys ((alookup (bump (bump (add_node (add_node g a) b).graph a b w) b a w) u).getD [])
      ↔ _
  rw [get_neighbors_bump]
  by_cases hub : u = b
  · subst hub
    rw [if_pos rfl]
    rw [show ∀ A v, z ∈ akeys (aset A a v) ↔ z ∈ akeys A ∨ z = a from
      fun A v => mem_akeys_aset]
    rw [get_neighbors_bump]
    by_cases hba : u = a
    · subst hba
      rw [if_pos rfl]
      rw [show ∀ A v, z ∈ akeys (aset A u v) ↔ z ∈ akeys A ∨ z = u from
        fun A v => mem_akeys_aset]
      have := hstep u z
      unfold adjacent get_neighbors at this
      rw [this]
      tauto
    · rw [if_neg hba]
      have := hstep u z
      unfold adjacent get_neighbors at this
      rw [this]
      tauto
  · rw [if_neg hub]
    rw [get_neighbors_bump]
    by_cases hua : u = a
    · subst hua
      rw [if_pos rfl]
      rw [show ∀ A v, z ∈ akeys (aset A b v) ↔ z ∈ akeys A ∨ z = b from
        fun A v => mem_akeys_aset]
      have := hstep u z
      unfold adjacent get_neighbors at this
      rw [this]
      tauto
    · rw [if_neg hua]
      have := hstep u z
      unfold adjacent get_neighbors at this
      rw [this]
      tauto


theorem fold_erase_alookup (item : α) (KS : List α) :
    ∀ (G : List (α × List (α × ℤ))), KS.Nodup → ∀ u : α,
      alookup (KS.foldl (fun acc nb =>
        if nb ∈ akeys acc ∧ item ∈ akeys ((alookup acc nb).getD []) then
          aset acc nb (aerase ((alookup acc nb).getD []) item)
        else acc) G) u =
      if u ∈ KS ∧ item ∈ akeys ((alookup G u).getD [])
      then some (aerase ((alookup G u).getD []) item)
      else alookup G u := by
  induction KS with
  | nil =>
    intro G _ u
    simp
  | cons nb KS2 ih =>
    intro G hnd u
    obtain ⟨hnb2, hnd2⟩ := List.nodup_cons.mp hnd
    simp only [List.foldl_cons]
    by_cases hc : item ∈ akeys ((alookup G nb).getD [])
    · have hnbG : nb ∈ akeys G := by
        by_contra hn
        rw [alookup_eq_none.mpr hn] at hc
        simp at hc
      rw [if_pos ⟨hnbG, hc⟩]
      rw [ih _ hnd2 u]
      by_cases hu : u = nb
      · subst hu
        rw [if_neg (fun hmem => hnb2 hmem.1)]
        rw [alookup_aset_self]
        rw [if_pos ⟨List.mem_cons_self u KS2, hc⟩]
      · rw [alookup_aset_ne _ _ hu]
        by_cases hmem : u ∈ KS2 ∧ item ∈ akeys ((alookup G u).getD [])
        · rw [if_pos hmem, if_pos ⟨List.mem_cons_of_mem nb hmem.1, hmem.2⟩]
        · rw [if_neg hmem,
            if_neg (fun hx => hmem ⟨(List.mem_cons.mp hx.1).resolve_left hu, hx.2⟩)]
    · rw [if_neg (fun hx => hc hx.2)]
      rw [ih _ hnd2 u]
      by_cases hu : u = nb
      · subst hu
        rw [if_neg (fun hmem => hnb2 hmem.1), if_neg (fun hx => hc hx.2)]
      · by_cases hmem : u ∈ KS2 ∧ item ∈ akeys ((alookup G u).getD [])
        · rw [if_pos hmem, if_pos ⟨List.mem_cons_of_mem nb hmem.1, hmem.2⟩]
        · rw [if_neg hmem,
            if_neg (fun hx => hmem ⟨(List.mem_cons.mp hx.1).resolve_left hu, hx.2⟩)]

theorem fold_erase_akeys (item : α) (KS : List α) :
    ∀ G : List (α × List (α × ℤ)),
      akeys (KS.foldl (fun acc nb =>
        if nb ∈ akeys acc ∧ item ∈ akeys ((alookup acc nb).getD []) then
          aset acc nb (aerase ((alookup acc nb).getD []) item)
        else acc) G) = akeys G := by
  induction KS with
  | nil =>
    intro G
    simp
  | cons nb KS2 ih =>
    intro G
    simp only [List.foldl_cons]
    by_cases hcond : nb ∈ akeys G ∧ item ∈ akeys ((alookup G nb).getD [])
    · rw [if_pos hcond, ih, akeys_aset_of_mem _ hcond.1]
    · rw [if_neg hcond, ih]

/-- Adjacency-list well-formedness in lookup form. -/
theorem GInv.adj_nodup_get {g : ProductGraph α} (hg : GInv g) (u : α) :
    (akeys ((alookup g.graph u).getD [])).Nodup := by
  rcases h : alookup g.graph u with _ | adj
  · simp
  · simpa using hg.adj_nodup (u, adj) (alookup_mem h)

theorem GInv.mem_akeys_iff {g : ProductGraph α} (hg : GInv g) (u : α) :
    u ∈ akeys g.graph ↔ u ∈ g.nodes := by
  rw [hg.nodes_eq, List.mem_toFinset]

theorem ginv_empty : GInv (emptyGraph : ProductGraph α) := by
  constructor
  · simp [emptyGraph, akeys]
  · intro e he
    simp [emptyGraph] at he
  · simp [emptyGraph, akeys]
  · intro u z h
    simp [adjacent, get_neighbors, emptyGraph, alookup] at h
  · intro u z h
    simp [adjacent, get_neighbors, emptyGraph, alookup] at h
  · intro u z
    simp [get_edge_weight, emptyGraph, alookup]

theorem ginv_add_node {g : ProductGraph α} (hg : GInv g) (x : α) :
    GInv (add_node g x) := by
  have hadj : ∀ u z : α, adjacent (add_node g x) u z ↔ adjacent g u z :=
    adjacent_add_node g x
  have hn : (add_node g x).nodes = insert x g.nodes := add_node_nodes g x
  by_cases hx : x ∈ g.nodes
  · have heq : add_node g x = g := by
      unfold add_node
      rw [if_pos hx]
    rw [heq]
    exact hg
  · have hxk : x ∉ akeys g.graph := fun h => hx ((hg.mem_akeys_iff x).mp h)
    have hgraph : (add_node g x).graph = g.graph ++ [(x, [])] := by
      unfold add_node
      rw [if_neg hx]
      simp [hxk]
    constructor
    · rw [hgraph]
      simp [List.nodup_append, hg.keys_nodup, hxk]
    · intro e he
      rw [hgraph] at he
      rcases List.mem_append.mp he with h1 | h1
      · exact hg.adj_nodup e h1
      · simp at h1
        subst h1
        simp
    · rw [hgraph, hn, hg.nodes_eq]
      ext y
      simp
      tauto
    · intro u z h
      rw [hn]
      exact Finset.mem_insert_of_mem (hg.closed u z ((hadj u z).mp h))
    · intro u z h
      exact (hadj z u).mpr (hg.psym u z ((hadj u z).mp h))
    · intro u z
      rw [add_node_weight, add_node_weight]
      exact hg.wsym u z

theorem ginv_add_edge {g : ProductGraph α} (hg : GInv g) (a b : α) (w : ℤ) :
    GInv (add_edge g a b w) := by
  have hg2 : GInv (add_node (add_node g a) b) := ginv_add_node (ginv_add_node hg a) b
  have hnodes2 : (add_node (add_node g a) b).nodes = insert b (insert a g.nodes) := by
    rw [add_node_nodes, add_node_nodes]
  have hka : a ∈ akeys (add_node (add_node g a) b).graph := by
    rw [hg2.mem_akeys_iff, hnodes2]
    simp
  have hkb : b ∈ akeys (add_node (add_node g a) b).graph := by
    rw [hg2.mem_akeys_iff, hnodes2]
    simp
  have hgraph : (add_edge g a b w).graph
      = bump (bump (add_node (add_node g a) b).graph a b w) b a w := rfl
  have hnodes : (add_edge g a b w).nodes = insert b (insert a g.nodes) := by
    rw [show (add_edge g a b w).nodes = (add_node (add_node g a) b).nodes from rfl,
      hnodes2]
  have hkeys : akeys (add_edge g a b w).graph
      = akeys (add_node (add_node g a) b).graph := by
    rw [hgraph, akeys_bump_of_mem a w (by rwa [akeys_bump_of_mem b w hka]),
      akeys_bump_of_mem b w hka]
  have hadj : ∀ u z : α, adjacent (add_edge g a b w) u z ↔
      adjacent g u z ∨ (u = a ∧ z = b) ∨ (u = b ∧ z = a) := adjacent_add_edge g a b w
  constructor
  · rw [hkeys]
    exact hg2.keys_nodup
  · intro e he
    have hnd := nodup_akeys_aset (l := (alookup (bump (add_node (add_node g a) b).graph a b w) b).getD [])
      (x := a) (w := wcell (bump (add_node (add_node g a) b).graph a b w) b a + w)
    have he2 : alookup (add_edge g a b w).graph e.1 = some e.2 := by
      apply alookup_of_mem_nodup _ (by simpa using he)
      rw [hkeys]
      exact hg2.keys_nodup
    rw [hgraph] at he2
    by_cases heb : e.1 = b
    · rw [heb, alookup_bump_self] at he2
      have h2 : e.2 = aset ((alookup (bump (add_node (add_node g a) b).graph a b w) b).getD [])
          a (wcell (bump (add_node (add_node g a) b).graph a b w) b a + w) :=
        (Option.some.injEq .. ▸ he2).symm
      rw [h2]
      apply nodup_akeys_aset
      rw [get_neighbors_bump]
      by_cases hba : b = a
      · rw [if_pos hba]
        apply nodup_akeys_aset
        exact hba ▸ hg2.adj_nodup_get b
      · rw [if_neg hba]
        exact hg2.adj_nodup_get b
    · rw [alookup_bump_ne _ _ _ heb] at he2
      by_cases hea : e.1 = a
      · rw [hea, alookup_bump_self] at he2
        have h2 : e.2 = aset ((alookup (add_node (add_node g a) b).graph a).getD [])
            b (wcell (add_node (add_node g a) b).graph a b + w) :=
          (Option.some.injEq .. ▸ he2).symm
        rw [h2]
        apply nodup_akeys_aset
        exact hg2.adj_nodup_get a
      · rw [alookup_bump_ne _ _ _ hea] at he2
        exact hg2.adj_nodup (e.1, e.2) (alookup_mem he2)
  · rw [hkeys, hnodes, ← hnodes2]
    exact hg2.nodes_eq
  · intro u z h
    rcases (hadj u z).mp h with h1 | h1 | h1
    · rw [hnodes]
      exact Finset.mem_insert_of_mem (Finset.mem_insert_of_mem (hg.closed u z h1))
    · rw [hnodes, h1.2]
      simp
    · rw [hnodes, h1.2]
      simp
  · intro u z h
    refine (hadj z u).mpr ?_
    rcases (hadj u z).mp h with h1 | h1 | h1
    · exact Or.inl (hg.psym u z h1)
    · exact Or.inr (Or.inr ⟨h1.2, h1.1⟩)
    · exact Or.inr (Or.inl ⟨h1.2, h1.1⟩)
  · intro u z
    rw [add_edge_weight, add_edge_weight, hg.wsym u z]
    have e1 : (if u = a ∧ z = b then w else (0 : ℤ))
        = (if z = b ∧ u = a then w else 0) := if_congr and_comm rfl rfl
    have e2 : (if u = b ∧ z = a then w else (0 : ℤ))
        = (if z = a ∧ u = b then w else 0) := if_congr and_comm rfl rfl
    rw [e1, e2]
    ring


theorem ginv_remove_node {g : ProductGraph α} (hg : GInv g) (item : α) :
    GInv (remove_node g item) := by
  by_cases hmem : item ∈ g.nodes
  case neg =>
    have heq : remove_node g item = g := by
      unfold remove_node
      rw [if_pos hmem]
    rw [heq]
    exact hg
  case pos =>
  have hkey : item ∈ akeys g.graph := (hg.mem_akeys_iff item).mpr hmem
  rcases hlk : alookup g.graph item with _ | adjI
  · exact absurd hkey (alookup_eq_none.mp hlk)
  have hgraph : (remove_node g item).graph =
      aerase ((akeys adjI).foldl (fun acc nb =>
        if nb ∈ akeys acc ∧ item ∈ akeys ((alookup acc nb).getD []) then
          aset acc nb (aerase ((alookup acc nb).getD []) item)
        else acc) g.graph) item := by
    unfold remove_node
    rw [if_neg (not_not.mpr hmem)]
    simp only
    rw [show (dict_read g.graph item).1 = adjI by unfold dict_read; rw [hlk],
      show (dict_read g.graph item).2 = g.graph by unfold dict_read; rw [hlk]]
  have hnodes : (remove_node g item).nodes = g.nodes.erase item := by
    unfold remove_node
    rw [if_neg (not_not.mpr hmem)]
  have hKSnd : (akeys adjI).Nodup := by
    simpa using hg.adj_nodup (item, adjI) (alookup_mem hlk)
  have hfoldk := fold_erase_akeys item (akeys adjI) g.graph
  have hcond : ∀ u : α, item ∈ akeys ((alookup g.graph u).getD []) →
      u ∈ akeys adjI := by
    intro u h
    have hadj : adjacent g u item := h
    have := hg.psym u item hadj
    unfold adjacent get_neighbors at this
    rw [hlk] at this
    simpa using this
  have hlook : ∀ u : α, alookup (remove_node g item).graph u =
      if u = item then none
      else if item ∈ akeys ((alookup g.graph u).getD [])
        then some (aerase ((alookup g.graph u).getD []) item)
        else alookup g.graph u := by
    intro u
    rw [hgraph]
    by_cases hu : u = item
    · subst hu
      rw [if_pos rfl]
      apply alookup_aerase_self
      rw [hfoldk]
      exact hg.keys_nodup
    · rw [if_neg hu, alookup_aerase_ne _ hu,
        fold_erase_alookup item (akeys adjI) g.graph hKSnd u]
      by_cases hc : item ∈ akeys ((alookup g.graph u).getD [])
      · rw [if_pos ⟨hcond u hc, hc⟩, if_pos hc]
      · rw [if_neg (fun hx => hc hx.2), if_neg hc]
  have hnbr : ∀ u : α, get_neighbors (remove_node g item) u =
      if u = item then []
      else if item ∈ akeys ((alookup g.graph u).getD [])
        then aerase ((alookup g.graph u).getD []) item
        else (alookup g.graph u).getD [] := by
    intro u
    unfold get_neighbors
    rw [hlook u]
    by_cases hu : u = item
    · simp [hu]
    · by_cases hc : item ∈ akeys ((alookup g.graph u).getD []) <;>
        simp [hu, hc]
  have hadj : ∀ u z : α, adjacent (remove_node g item) u z ↔
      (adjacent g u z ∧ u ≠ item ∧ z ≠ item) := by
    intro u z
    unfold adjacent
    rw [hnbr u]
    by_cases hu : u = item
    · subst hu
      simp
    · rw [if_neg hu]
      by_cases hc : item ∈ akeys ((alookup g.graph u).getD [])
      · rw [if_pos hc, akeys_aerase,
          List.Nodup.mem_erase_iff (hg.adj_nodup_get u)]
        unfold get_neighbors
        tauto
      · rw [if_neg hc]
        unfold get_neighbors
        constructor
        · intro h
          exact ⟨h, hu, fun hz => hc (hz ▸ h)⟩
        · exact fun h => h.1
  have hweight : ∀ u z : α, get_edge_weight (remove_node g item) u z =
      if u = item ∨ z = item then 0 else get_edge_weight g u z := by
    intro u z
    rw [get_edge_weight_eq]
    unfold wcell
    rw [hlook u]
    by_cases hu : u = item
    · simp [hu, alookup]
    · rw [if_neg hu]
      by_cases hc : item ∈ akeys ((alookup g.graph u).getD [])
      · rw [if_pos hc]
        simp only [Option.getD_some]
        by_cases hz : z = item
        · subst hz
          rw [alookup_aerase_self (hg.adj_nodup_get u)]
          simp [hu]
        · rw [alookup_aerase_ne _ hz, if_neg (by tauto), get_edge_weight_eq]
          rfl
      · by_cases hz : z = item
        · subst hz
          rw [if_neg hc, alookup_eq_none.mpr hc]
          simp [hu]
        · rw [if_neg hc, if_neg (by tauto), get_edge_weight_eq]
          rfl
  have hkeysfin : akeys (remove_node g item).graph = (akeys g.graph).erase item := by
    rw [hgraph, akeys_aerase, hfoldk]
  constructor
  · rw [hkeysfin]
    exact hg.keys_nodup.erase item
  · intro e he
    have hnd : (akeys (remove_node g item).graph).Nodup := by
      rw [hkeysfin]
      exact hg.keys_nodup.erase item
    have hle : alookup (remove_node g item).graph e.1 = some e.2 :=
      alookup_of_mem_nodup hnd (by simpa using he)
    rw [hlook e.1] at hle
    by_cases hu : e.1 = item
    · rw [if_pos hu] at hle
      exact absurd hle (by simp)
    · rw [if_neg hu] at hle
      by_cases hc : item ∈ akeys ((alookup g.graph e.1).getD [])
      · rw [if_pos hc] at hle
        have h2 : e.2 = aerase ((alookup g.graph e.1).getD []) item :=
          (Option.some_inj.mp hle).symm
        rw [h2]
        exact nodup_akeys_aerase (hg.adj_nodup_get e.1)
      · rw [if_neg hc] at hle
        exact hg.adj_nodup (e.1, e.2) (alookup_mem hle)
  · rw [hnodes, hkeysfin, hg.nodes_eq]
    ext y
    rw [Finset.mem_erase, List.mem_toFinset, List.mem_toFinset,
      List.Nodup.mem_erase_iff hg.keys_nodup]
  · intro u z h
    obtain ⟨h1, -, hz⟩ := (hadj u z).mp h
    rw [hnodes]
    exact Finset.mem_erase.mpr ⟨hz, hg.closed u z h1⟩
  · intro u z h
    obtain ⟨h1, hu, hz⟩ := (hadj u z).mp h
    exact (hadj z u).mpr ⟨hg.psym u z h1, hz, hu⟩
  · intro u z
    rw [hweight, hweight, hg.wsym u z]
    have e1 : (if u = item ∨ z = item then (0 : ℤ) else get_edge_weight g z u)
        = if z = item ∨ u = item then (0 : ℤ) else get_edge_weight g z u :=
      if_congr or_comm rfl rfl
    rw [e1]

/-- Every reachable graph state satisfies the structural invariant. -/
theorem reachable_ginv {g : ProductGraph α} (h : Reachable g) : GInv g := by
  induction h with
  | empty => exact ginv_empty
  | node item _ ih => exact ginv_add_node ih item
  | edge item1 item2 w _ ih => exact ginv_add_edge ih item1 item2 w
  | remove item _ ih => exact ginv_remove_node ih item

end Invariants

section Claims2

/-- C2: on every graph reachable from the empty graph by add_node,
add_edge and remove_node calls, get_edge_weight is symmetric:
get_edge_weight(a, b) = get_edge_weight(b, a) for all items. -/
theorem C2_edge_weight_symmetric {α : Type} [DecidableEq α]
    {g : ProductGraph α} (h : Reachable g) (a b : α) :
    get_edge_weight g a b = get_edge_weight g b a :=
  (reachable_ginv h).wsym a b

/-- C2 witness: the symmetry theorem applied to a concrete reachable
graph built by an add_edge and a remove_node call. -/
theorem C2_edge_weight_symmetric_witness :
    get_edge_weight (remove_node (add_edge (emptyGraph : ProductGraph ℕ) 0 1 5) 2) 0 1
      = get_edge_weight (remove_node (add_edge (emptyGraph : ProductGraph ℕ) 0 1 5) 2) 1 0 :=
  C2_edge_weight_symmetric
    (Reachable.remove 2 (Reachable.edge 0 1 5 Reachable.empty)) 0 1

end Claims2

section BfsLemmas

variable {α : Type} [DecidableEq α]

theorem bfs_loop_nodup (g : ProductGraph α) (md : Option ℕ)
    (visited : Finset α) (queue : List (α × ℕ)) :
    (bfs_loop g md visited queue).Nodup ∧
      ∀ x ∈ bfs_loop g md visited queue, x ∉ visited := by
  induction visited, queue using bfs_loop.induct g md with
  | case1 visited =>
    simp [bfs_loop]
  | case2 visited v depth rest hv ih =>
    rw [show bfs_loop g md visited ((v, depth) :: rest) = bfs_loop g md visited rest by
      rw [bfs_loop.eq_def]
      simp [hv]]
    exact ih
  | case3 visited v depth rest hv hd ih =>
    rw [show bfs_loop g md visited ((v, depth) :: rest) = bfs_loop g md visited rest by
      rw [bfs_loop.eq_def]
      simp [hv, hd]]
    exact ih
  | case4 visited v depth rest hv hd ih =>
    rw [show bfs_loop g md visited ((v, depth) :: rest) =
        v :: bfs_loop g md (insert v visited)
          (rest ++ ((akeys (get_neighbors g v)).filter
            (fun z => decide (z ∉ visited))).map (fun z => (z, depth + 1))) by
      rw [bfs_loop.eq_def]
      simp [hv, hd]]
    obtain ⟨ihn, ihm⟩ := ih
    refine ⟨List.nodup_cons.mpr ⟨fun hvm => ihm v hvm (Finset.mem_insert_self v visited), ihn⟩, ?_⟩
    intro x hx
    rcases List.mem_cons.mp hx with rfl | hx2
    · exact hv
    · exact fun hxv => ihm x hx2 (Finset.mem_insert_of_mem hxv)

theorem bfs_loop_mem_nodes (g : ProductGraph α) (md : Option ℕ)
    (hcl : ∀ u z : α, adjacent g u z → z ∈ g.nodes)
    (visited : Finset α) (queue : List (α × ℕ)) :
    (∀ e ∈ queue, e.1 ∈ g.nodes) →
      ∀ x ∈ bfs_loop g md visited queue, x ∈ g.nodes := by
  induction visited, queue using bfs_loop.induct g md with
  | case1 visited =>
    simp [bfs_loop]
  | case2 visited v depth rest hv ih =>
    intro hq
    rw [show bfs_loop g md visited ((v, depth) :: rest) = bfs_loop g md visited rest by
      rw [bfs_loop.eq_def]
      simp [hv]]
    exact ih (fun e he => hq e (List.mem_cons_of_mem _ he))
  | case3 visited v depth rest hv hd ih =>
    intro hq
    rw [show bfs_loop g md visited ((v, depth) :: rest) = bfs_loop g md visited rest by
      rw [bfs_loop.eq_def]
      simp [hv, hd]]
    exact ih (fun e he => hq e (List.mem_cons_of_mem _ he))
  | case4 visited v depth rest hv hd ih =>
    intro hq
    rw [show bfs_loop g md visited ((v, depth) :: rest) =
        v :: bfs_loop g md (insert v visited)
          (rest ++ ((akeys (get_neighbors g v)).filter
            (fun z => decide (z ∉ visited))).map (fun z => (z, depth + 1))) by
      rw [bfs_loop.eq_def]
      simp [hv, hd]]
    intro x hx
    rcases List.mem_cons.mp hx with rfl | hx2
    · exact hq (x, depth) (List.mem_cons_self _ _)
    · refine ih ?_ x hx2
      intro e he
      rcases List.mem_append.mp he with h1 | h1
      · exact hq e (List.mem_cons_of_mem _ h1)
      · obtain ⟨z, hz, rfl⟩ := List.mem_map.mp h1
        exact hcl v z (List.mem_filter.mp hz).1

end BfsLemmas

section Claims3

/-- C7: on every reachable graph, bfs with no depth bound from a known
start item begins with the start item, never repeats an item, and is no
longer than the node count; from an unknown start item it returns the
empty sequence. -/
theorem C7_bfs_basic {α : Type} [DecidableEq α] {g : ProductGraph α}
    (hr : Reachable g) (start : α) :
    (start ∈ g.nodes →
      (bfs g start none).head? = some start ∧
      (bfs g start none).Nodup ∧
      (bfs g start none).length ≤ get_node_count g) ∧
    (start ∉ g.nodes → bfs g start none = []) := by
  have hg := reachable_ginv hr
  constructor
  · intro hstart
    constructor
    · unfold bfs
      rw [if_neg (not_not.mpr (by simpa [get_all_nodes] using hstart))]
      rw [bfs_loop.eq_def]
      simp
    constructor
    · have h := bfs_loop_nodup g none ∅ [(start, 0)]
      unfold bfs
      rw [if_neg (not_not.mpr (by simpa [get_all_nodes] using hstart))]
      exact h.1
    · have hsub : ∀ x ∈ bfs g start none, x ∈ g.nodes := by
        unfold bfs
        rw [if_neg (not_not.mpr (by simpa [get_all_nodes] using hstart))]
        exact bfs_loop_mem_nodes g none hg.closed ∅ [(start, 0)]
          (by
            intro e he
            simp at he
            rw [he]
            exact hstart)
      have hnd : (bfs g start none).Nodup := by
        unfold bfs
        rw [if_neg (not_not.mpr (by simpa [get_all_nodes] using hstart))]
        exact (bfs_loop_nodup g none ∅ [(start, 0)]).1
      calc (bfs g start none).length
          = (bfs g start none).toFinset.card := (List.toFinset_card_of_nodup hnd).symm
        _ ≤ g.nodes.card := Finset.card_le_card (fun x hx =>
            hsub x (List.mem_toFinset.mp hx))
        _ = get_node_count g := rfl
  · intro hstart
    unfold bfs
    rw [if_pos (by simpa [get_all_nodes] using hstart)]

/-- C7 witness: the bfs properties at a concrete reachable two-node
graph with known start item 0. -/
theorem C7_bfs_basic_witness :
    (bfs (add_edge (emptyGraph : ProductGraph ℕ) 0 1 1) 0 none).head? = some 0 ∧
    (bfs (add_edge (emptyGraph : ProductGraph ℕ) 0 1 1) 0 none).Nodup ∧
    (bfs (add_edge (emptyGraph : ProductGraph ℕ) 0 1 1) 0 none).length ≤
      get_node_count (add_edge (emptyGraph : ProductGraph ℕ) 0 1 1) :=
  (C7_bfs_basic (Reachable.edge 0 1 1 Reachable.empty) 0).1 (by decide)

end Claims3

section MiningLemmas

variable {α : Type} [LinearOrder α]

theorem nodup_all_eq_length_le_one {l : List α} (hnd : l.Nodup)
    (h : ∀ a ∈ l, ∀ b ∈ l, a = b) : l.length ≤ 1 := by
  match l with
  | [] => simp
  | [a] => simp
  | a :: b :: rest =>
    exfalso
    rw [List.nodup_cons] at hnd
    exact hnd.1 (by
      rw [h a (List.mem_cons_self a _) b (List.mem_cons_of_mem a (List.mem_cons_self b _))]
      exact List.mem_cons_self b rest)

theorem sublist_eq_of_toFinset_eq :
    ∀ {t l1 l2 : List α}, t.Nodup → l1.Sublist t → l2.Sublist t →
      l1.toFinset = l2.toFinset → l1 = l2 := by
  intro t
  induction t with
  | nil =>
    intro l1 l2 _ h1 h2 _
    rw [List.sublist_nil.mp h1, List.sublist_nil.mp h2]
  | cons x t2 ih =>
    intro l1 l2 hnd h1 h2 hf
    rw [List.nodup_cons] at hnd
    cases h1 with
    | cons _ h1 =>
      cases h2 with
      | cons _ h2 => exact ih hnd.2 h1 h2 hf
      | cons₂ _ h2 =>
        exfalso
        rename_i l2tail
        have hx : x ∈ l1.toFinset := by
          rw [hf]
          simp
        exact hnd.1 (h1.subset (List.mem_toFinset.mp hx))
    | cons₂ _ h1 =>
      rename_i l1tail
      cases h2 with
      | cons _ h2 =>
        exfalso
        have hx : x ∈ l2.toFinset := by
          rw [← hf]
          simp
        exact hnd.1 (h2.subset (List.mem_toFinset.mp hx))
      | cons₂ _ h2 =>
        rename_i l2tail
        have hx1 : x ∉ l1tail.toFinset :=
          fun hc => hnd.1 (h1.subset (List.mem_toFinset.mp hc))
        have hx2 : x ∉ l2tail.toFinset :=
          fun hc => hnd.1 (h2.subset (List.mem_toFinset.mp hc))
        have htails : l1tail.toFinset = l2tail.toFinset := by
          have h3 : insert x l1tail.toFinset = insert x l2tail.toFinset := by
            simpa using hf
          rw [← Finset.erase_insert hx1, ← Finset.erase_insert hx2, h3]
        rw [ih hnd.2 h1 h2 htails]

theorem exists_sublist_of_subset :
    ∀ {t : List α} {S : Finset α}, t.Nodup → S ⊆ t.toFinset →
      ∃ l : List α, l.Sublist t ∧ l.toFinset = S ∧ l.length = S.card := by
  intro t
  induction t with
  | nil =>
    intro S _ hsub
    refine ⟨[], List.Sublist.refl [], ?_, ?_⟩
    · simp at hsub
      simp [hsub]
    · simp at hsub
      simp [hsub]
  | cons x t2 ih =>
    intro S hnd hsub
    rw [List.nodup_cons] at hnd
    by_cases hx : x ∈ S
    · have hsub2 : S.erase x ⊆ t2.toFinset := by
        intro y hy
        obtain ⟨hyx, hyS⟩ := Finset.mem_erase.mp hy
        rcases List.mem_cons.mp (List.mem_toFinset.mp (hsub hyS)) with h | h
        · exact absurd h hyx
        · exact List.mem_toFinset.mpr h
      obtain ⟨l, hl, hlt, hln⟩ := ih hnd.2 hsub2
      refine ⟨x :: l, hl.cons₂ x, ?_, ?_⟩
      · rw [List.toFinset_cons, hlt, Finset.insert_erase hx]
      · rw [List.length_cons, hln, Finset.card_erase_of_mem hx]
        have := Finset.card_pos.mpr ⟨x, hx⟩
        omega
    · have hsub2 : S ⊆ t2.toFinset := by
        intro y hy
        rcases List.mem_cons.mp (List.mem_toFinset.mp (hsub hy)) with h | h
        · exact absurd (h ▸ hy) hx
        · exact List.mem_toFinset.mpr h
      obtain ⟨l, hl, hlt, hln⟩ := ih hnd.2 hsub2
      exact ⟨l, hl.cons x, hlt, hln⟩

theorem pysorted_perm (t : List α) : (pysorted t).Perm t :=
  List.perm_insertionSort _ t

theorem pysorted_nodup {t : List α} (h : t.Nodup) : (pysorted t).Nodup :=
  (pysorted_perm t).nodup_iff.mpr h

theorem pysorted_toFinset (t : List α) : (pysorted t).toFinset = t.toFinset :=
  List.toFinset_eq_of_perm _ _ (pysorted_perm t)

theorem pysorted_length (t : List α) : (pysorted t).length = t.length :=
  (pysorted_perm t).length_eq

/-- Value of the per-transaction combination count on a duplicate-free
transaction: exactly one k-combination realises each k-subset of the
transaction's items, every other set is realised by none. -/
theorem k_combo_count_eq {t : List α} (ht : t.Nodup) (k : ℕ) (S : Finset α) :
    k_combo_count t k S = if S ⊆ t.toFinset ∧ S.card = k then 1 else 0 := by
  unfold k_combo_count
  by_cases hguard : k ≤ t.length
  · rw [if_pos hguard]
    by_cases hcond : S ⊆ t.toFinset ∧ S.card = k
    · rw [if_pos hcond]
      rw [List.countP_eq_length_filter]
      have hnd : ((pysorted t).sublistsLen k).Nodup :=
        List.nodup_sublistsLen k (pysorted_nodup ht)
      have hone : ∀ a ∈ ((pysorted t).sublistsLen k).filter
            (fun c => decide (c.toFinset = S)),
          ∀ b ∈ ((pysorted t).sublistsLen k).filter
            (fun c => decide (c.toFinset = S)), a = b := by
        intro a ha b hb
        obtain ⟨ha1, ha2⟩ := List.mem_filter.mp ha
        obtain ⟨hb1, hb2⟩ := List.mem_filter.mp hb
        obtain ⟨ha3, -⟩ := List.mem_sublistsLen.mp ha1
        obtain ⟨hb3, -⟩ := List.mem_sublistsLen.mp hb1
        exact sublist_eq_of_toFinset_eq (pysorted_nodup ht) ha3 hb3
          (by rw [of_decide_eq_true ha2, of_decide_eq_true hb2])
      have hle : (((pysorted t).sublistsLen k).filter
          (fun c => decide (c.toFinset = S))).length ≤ 1 :=
        nodup_all_eq_length_le_one (hnd.filter _) hone
      have hge : 1 ≤ (((pysorted t).sublistsLen k).filter
          (fun c => decide (c.toFinset = S))).length := by
        obtain ⟨l, hl, hlt, hln⟩ := exists_sublist_of_subset (S := S)
          (pysorted_nodup ht) (by rw [pysorted_toFinset]; exact hcond.1)
        have hmem : l ∈ ((pysorted t).sublistsLen k).filter
            (fun c => decide (c.toFinset = S)) := by
          rw [List.mem_filter]
          exact ⟨List.mem_sublistsLen.mpr ⟨hl, by rw [hln, hcond.2]⟩,
            decide_eq_true hlt⟩
        exact List.length_pos_of_mem hmem
      omega
    · rw [if_neg hcond]
      rw [List.countP_eq_length_filter, List.length_eq_zero]
      rw [List.filter_eq_nil_iff]
      intro c hc
      obtain ⟨hc1, hc2⟩ := List.mem_sublistsLen.mp hc
      rw [decide_eq_true_eq]
      intro hct
      apply hcond
      constructor
      · rw [← hct, ← pysorted_toFinset t]
        intro y hy
        exact List.mem_toFinset.mpr (hc1.subset (List.mem_toFinset.mp hy))
      · rw [← hct, List.toFinset_card_of_nodup
          (hc1.nodup (pysorted_nodup ht)), hc2]
  · rw [if_neg hguard]
    rw [if_neg]
    rintro ⟨hsub, hcard⟩
    apply hguard
    calc k = S.card := hcard.symm
      _ ≤ t.toFinset.card := Finset.card_le_card hsub
      _ = t.length := by rw [List.toFinset_card_of_nodup ht]

theorem one_le_min_support_count (transactions : List (List α)) (ms : ℚ) :
    1 ≤ min_support_count transactions ms := by
  simp only [min_support_count]
  split <;> omega

theorem countP_le_sum_map {β : Type} {l : List β} (p : β → Bool) (f : β → ℕ)
    (h : ∀ t ∈ l, p t → 1 ≤ f t) : l.countP p ≤ (l.map f).sum := by
  induction l with
  | nil => simp
  | cons a l2 ih =>
    rw [List.countP_cons, List.map_cons, List.sum_cons]
    have h2 := ih (fun t ht hp => h t (List.mem_cons_of_mem a ht) hp)
    by_cases hp : p a
    · have := h a (List.mem_cons_self a l2) hp
      rw [if_pos hp]
      omega
    · rw [if_neg hp]
      omega

theorem k_itemset_count_eq_countP {transactions : List (List α)}
    (hnd : ∀ t ∈ transactions, t.Nodup) {k : ℕ} {S : Finset α} (hcard : S.card = k) :
    k_itemset_count transactions k S =
      transactions.countP (fun t => decide (S ⊆ t.toFinset)) := by
  induction transactions with
  | nil => simp [k_itemset_count]
  | cons t ts ih =>
    have hthis := k_combo_count_eq (hnd t (List.mem_cons_self t ts)) k S
    have hrest := ih (fun t2 ht2 => hnd t2 (List.mem_cons_of_mem t ht2))
    unfold k_itemset_count at hrest ⊢
    rw [List.map_cons, List.sum_cons, List.countP_cons, hthis, hrest]
    by_cases hs : S ⊆ t.toFinset
    · rw [if_pos ⟨hs, hcard⟩, if_pos (decide_eq_true hs)]
      omega
    · rw [if_neg (fun hx => hs hx.1), if_neg (by simpa using hs)]
      omega

theorem mem_k_itemset_keys_of_pos {transactions : List (List α)} {k : ℕ}
    {S : Finset α} (h : 1 ≤ k_itemset_count transactions k S) :
    S ∈ k_itemset_keys transactions k := by
  unfold k_itemset_count at h
  have hex : ∃ t ∈ transactions, 1 ≤ k_combo_count t k S := by
    by_contra hc
    push_neg at hc
    have h0 : (transactions.map (fun t => k_combo_count t k S)).sum = 0 := by
      apply List.sum_eq_zero
      intro x hx
      obtain ⟨t, ht, rfl⟩ := List.mem_map.mp hx
      have := hc t ht
      omega
    omega
  obtain ⟨t, ht, hpos⟩ := hex
  unfold k_combo_count at hpos
  by_cases hguard : k ≤ t.length
  · rw [if_pos hguard] at hpos
    have hex2 : ∃ c ∈ (pysorted t).sublistsLen k, decide (c.toFinset = S) := by
      rw [← List.countP_pos_iff]
      omega
    obtain ⟨c, hc, hcS⟩ := hex2
    unfold k_itemset_keys
    rw [List.mem_toFinset, List.mem_flatMap]
    refine ⟨t, ht, ?_⟩
    rw [if_pos hguard, List.mem_map]
    exact ⟨c, hc, of_decide_eq_true hcS⟩
  · rw [if_neg hguard] at hpos
    omega

theorem mem_find_frequent_k_itemsets {transactions : List (List α)} {ms : ℚ}
    {k : ℕ} {S : Finset α} :
    S ∈ find_frequent_k_itemsets transactions ms k ↔
      1 ≤ k ∧ S ∈ k_itemset_keys transactions k ∧
        min_support_count transactions ms ≤ (k_itemset_count transactions k S : ℤ) := by
  unfold find_frequent_k_itemsets
  by_cases hk : k < 1
  · rw [if_pos hk]
    simp
    omega
  · rw [if_neg hk, Finset.mem_filter]
    constructor
    · rintro ⟨h1, h2⟩
      exact ⟨by omega, h1, h2⟩
    · rintro ⟨-, h1, h2⟩
      exact ⟨h1, h2⟩

theorem card_of_mem_k_itemset_keys {transactions : List (List α)}
    (hnd : ∀ t ∈ transactions, t.Nodup) {k : ℕ} {S : Finset α}
    (h : S ∈ k_itemset_keys transactions k) : S.card = k := by
  unfold k_itemset_keys at h
  rw [List.mem_toFinset, List.mem_flatMap] at h
  obtain ⟨t, ht, hmem⟩ := h
  by_cases hguard : k ≤ t.length
  · rw [if_pos hguard, List.mem_map] at hmem
    obtain ⟨c, hc, rfl⟩ := hmem
    obtain ⟨hc1, hc2⟩ := List.mem_sublistsLen.mp hc
    rw [List.toFinset_card_of_nodup (hc1.nodup (pysorted_nodup (hnd t ht))), hc2]
  · rw [if_neg hguard] at hmem
    simp at hmem

theorem mem_flatMap_of_item_count_pos {transactions : List (List α)} {x : α}
    (h : 1 ≤ item_count transactions x) : x ∈ (transactions.flatMap id).toFinset := by
  unfold item_count at h
  have hex : ∃ t ∈ transactions, 1 ≤ t.count x := by
    by_contra hc
    push_neg at hc
    have h0 : (transactions.map (fun t => t.count x)).sum = 0 := by
      apply List.sum_eq_zero
      intro y hy
      obtain ⟨t, ht, rfl⟩ := List.mem_map.mp hy
      have := hc t ht
      omega
    omega
  obtain ⟨t, ht, hpos⟩ := hex
  rw [List.mem_toFinset, List.mem_flatMap]
  refine ⟨t, ht, ?_⟩
  show x ∈ id t
  rw [id]
  rw [← List.count_pos_iff]
  omega

end MiningLemmas

section Claims4

/-- C3 counterexample: with a repeated item inside a transaction the
claimed monotonicity fails: on transactions [[0,0,1],[2],[2]] with
min_support 2/3 (support count 2), the two-element set of items 0 and 1
is a frequent 2-itemset, but its one-element subset containing item 1 is
not a frequent 1-itemset (item 1 occurs only once). -/
theorem C3_monotonicity_counterexample :
    ({0, 1} : Finset ℕ) ∈
        find_frequent_k_itemsets ([[0, 0, 1], [2], [2]] : List (List ℕ)) (2 / 3) 2 ∧
      ({1} : Finset ℕ) ⊆ {0, 1} ∧ ({1} : Finset ℕ).card = 2 - 1 ∧
      1 ∉ find_frequent_1_itemsets ([[0, 0, 1], [2], [2]] : List (List ℕ)) (2 / 3) := by
  have hms : min_support_count ([[0, 0, 1], [2], [2]] : List (List ℕ)) (2 / 3) = 2 := by
    simp only [min_support_count, pytrunc]
    norm_num
  refine ⟨?_, by decide, by decide, ?_⟩
  · simp only [find_frequent_k_itemsets, hms]
    decide
  · simp only [find_frequent_1_itemsets, hms]
    decide

/-- C3 amended: provided no transaction contains a repeated item, the
Apriori monotonicity holds: every (k−1)-subset of a frequent k-itemset
is a frequent (k−1)-itemset (and for k = 2, every item of the pair is a
frequent 1-itemset). -/
theorem C3_monotonicity_nodup {α : Type} [LinearOrder α]
    (transactions : List (List α)) (minSupport : ℚ) (k : ℕ)
    (hk : 2 ≤ k) (hnd : ∀ t ∈ transactions, t.Nodup)
    (S : Finset α) (hS : S ∈ find_frequent_k_itemsets transactions minSupport k)
    (S2 : Finset α) (hsub : S2 ⊆ S) (hcard : S2.card = k - 1) :
    (3 ≤ k → S2 ∈ find_frequent_k_itemsets transactions minSupport (k - 1)) ∧
    (k = 2 → ∀ x ∈ S2, x ∈ find_frequent_1_itemsets transactions minSupport) := by
  obtain ⟨-, hkeys, hcount⟩ := mem_find_frequent_k_itemsets.mp hS
  have hScard : S.card = k := card_of_mem_k_itemset_keys hnd hkeys
  have hmsc := one_le_min_support_count transactions minSupport
  have hcpos : 1 ≤ k_itemset_count transactions k S := by omega
  have hSsum : k_itemset_count transactions k S =
      transactions.countP (fun t => decide (S ⊆ t.toFinset)) :=
    k_itemset_count_eq_countP hnd hScard
  have hS2sum : k_itemset_count transactions (k - 1) S2 =
      transactions.countP (fun t => decide (S2 ⊆ t.toFinset)) :=
    k_itemset_count_eq_countP hnd hcard
  have hmono : transactions.countP (fun t => decide (S ⊆ t.toFinset)) ≤
      transactions.countP (fun t => decide (S2 ⊆ t.toFinset)) := by
    apply List.countP_mono_left
    intro t ht hp
    exact decide_eq_true (fun y hy => of_decide_eq_true hp (hsub hy))
  have hge : k_itemset_count transactions k S ≤
      k_itemset_count transactions (k - 1) S2 := by
    rw [hSsum, hS2sum]
    exact hmono
  constructor
  · intro hk3
    rw [mem_find_frequent_k_itemsets]
    refine ⟨by omega, mem_k_itemset_keys_of_pos (by omega), by omega⟩
  · rintro rfl x hx
    unfold find_frequent_1_itemsets
    rw [Finset.mem_filter]
    have hitem : transactions.countP (fun t => decide (S2 ⊆ t.toFinset)) ≤
        item_count transactions x := by
      unfold item_count
      apply countP_le_sum_map
      intro t ht hp
      have hxt : x ∈ t := List.mem_toFinset.mp (of_decide_eq_true hp hx)
      have h0 : 0 < t.count x := List.count_pos_iff.mpr hxt
      omega
    refine ⟨mem_flatMap_of_item_count_pos (by omega), by omega⟩

/-- C3 witness: the amended theorem applied at the single duplicate-free
transaction [0, 1] with min_support 0 and k = 2: item 0 is a frequent
1-itemset. -/
theorem C3_monotonicity_nodup_witness :
    0 ∈ find_frequent_1_itemsets ([[0, 1]] : List (List ℕ)) 0 := by
  have hS : ({0, 1} : Finset ℕ) ∈
      find_frequent_k_itemsets ([[0, 1]] : List (List ℕ)) 0 2 := by
    have hms : min_support_count ([[0, 1]] : List (List ℕ)) 0 = 1 := by
      simp only [min_support_count, pytrunc]
      norm_num
    simp only [find_frequent_k_itemsets, hms]
    decide
  exact (C3_monotonicity_nodup ([[0, 1]] : List (List ℕ)) 0 2 (by omega)
    (by decide) {0, 1} hS {0} (by decide) (by decide)).2 rfl 0 (by decide)

end Claims4

section PairLemmas

variable {α : Type} [LinearOrder α]

theorem pair_count_eq_sum (transactions : List (List α)) (pr : List α) :
    pair_count transactions pr = (transactions.map (fun t =>
      if 2 ≤ t.length then ((pysorted t).sublistsLen 2).count pr else 0)).sum := by
  unfold pair_count pair_occurrences
  induction transactions with
  | nil => simp
  | cons t ts ih =>
    rw [List.flatMap_cons, List.count_append, List.map_cons, List.sum_cons, ih]
    by_cases h : 2 ≤ t.length
    · rw [if_pos h, if_pos h]
    · rw [if_neg h, if_neg h]
      simp

theorem sum_map_le_sum_map {β : Type} (l : List β) (f g : β → ℕ)
    (h : ∀ t ∈ l, f t ≤ g t) : (l.map f).sum ≤ (l.map g).sum := by
  induction l with
  | nil => simp
  | cons a l2 ih =>
    rw [List.map_cons, List.map_cons, List.sum_cons, List.sum_cons]
    have h1 := h a (List.mem_cons_self a l2)
    have h2 := ih (fun t ht => h t (List.mem_cons_of_mem a ht))
    omega

theorem count_le_one_of_nodup {β : Type} [BEq β] [LawfulBEq β] {l : List β}
    (h : l.Nodup) (b : β) : l.count b ≤ 1 := by
  induction l with
  | nil => simp
  | cons a l2 ih =>
    rw [List.count_cons]
    rw [List.nodup_cons] at h
    by_cases hb : b = a
    · subst hb
      have h0 : l2.count b = 0 := List.count_eq_zero.mpr h.1
      simp [h0]
    · have hbeq : (a == b) = false := by
        simp
        exact fun hc => hb hc.symm
      rw [hbeq]
      simpa using ih h.2

theorem sum_map_one {β : Type} (l : List β) :
    (l.map (fun _ => (1 : ℕ))).sum = l.length := by
  induction l with
  | nil => simp
  | cons a l2 ih =>
    simp [ih]
    omega

theorem pair_local_le_one {t : List α} (ht : t.Nodup) (pr : List α) :
    (if 2 ≤ t.length then ((pysorted t).sublistsLen 2).count pr else 0) ≤ 1 := by
  by_cases h : 2 ≤ t.length
  · rw [if_pos h]
    exact count_le_one_of_nodup (List.nodup_sublistsLen 2 (pysorted_nodup ht)) pr
  · rw [if_neg h]
    omega

theorem pair_local_le_count {t : List α} (ht : t.Nodup) {pr : List α} {z : α}
    (hz : z ∈ pr) :
    (if 2 ≤ t.length then ((pysorted t).sublistsLen 2).count pr else 0) ≤ t.count z := by
  by_cases h : 2 ≤ t.length
  · rw [if_pos h]
    by_cases hpos : 1 ≤ ((pysorted t).sublistsLen 2).count pr
    · have hmem : pr ∈ (pysorted t).sublistsLen 2 := by
        rw [← List.count_pos_iff]
        omega
      obtain ⟨hsub, -⟩ := List.mem_sublistsLen.mp hmem
      have hzt : z ∈ t := (pysorted_perm t).subset (hsub.subset hz)
      have hc1 : 0 < t.count z := List.count_pos_iff.mpr hzt
      have hle := count_le_one_of_nodup
        (List.nodup_sublistsLen 2 (pysorted_nodup ht)) pr
      omega
    · omega
  · rw [if_neg h]
    omega

theorem pair_count_le_length {transactions : List (List α)}
    (hnd : ∀ t ∈ transactions, t.Nodup) (pr : List α) :
    pair_count transactions pr ≤ transactions.length := by
  rw [pair_count_eq_sum]
  calc (transactions.map (fun t =>
        if 2 ≤ t.length then ((pysorted t).sublistsLen 2).count pr else 0)).sum
      ≤ (transactions.map (fun _ => 1)).sum :=
        sum_map_le_sum_map _ _ _ (fun t ht => pair_local_le_one (hnd t ht) pr)
    _ = transactions.length := sum_map_one transactions

theorem pair_count_le_item_count {transactions : List (List α)}
    (hnd : ∀ t ∈ transactions, t.Nodup) {pr : List α} {z : α} (hz : z ∈ pr) :
    pair_count transactions pr ≤ item_count transactions z := by
  rw [pair_count_eq_sum]
  unfold item_count
  exact sum_map_le_sum_map _ _ _ (fun t ht => pair_local_le_count (hnd t ht) hz)

theorem item_count_of_mem_tx {transactions : List (List α)} {t : List α} {z : α}
    (ht : t ∈ transactions) (hz : z ∈ t) : 1 ≤ item_count transactions z := by
  unfold item_count
  have h1 : 0 < t.count z := List.count_pos_iff.mpr hz
  have h2 : t.count z ≤ (transactions.map (fun t2 => t2.count z)).sum :=
    List.single_le_sum (fun x _ => Nat.zero_le x) _
      (List.mem_map_of_mem (fun t2 => t2.count z) ht)
  omega

theorem pair_count_pos_facts {transactions : List (List α)} {pr : List α}
    (h : 1 ≤ pair_count transactions pr) :
    1 ≤ transactions.length ∧ ∀ z ∈ pr, 1 ≤ item_count transactions z := by
  unfold pair_count at h
  have hmem : pr ∈ pair_occurrences transactions := by
    rw [← List.count_pos_iff]
    omega
  unfold pair_occurrences at hmem
  rw [List.mem_flatMap] at hmem
  obtain ⟨t, ht, hmem2⟩ := hmem
  by_cases hg : 2 ≤ t.length
  · rw [if_pos hg] at hmem2
    obtain ⟨hsub, -⟩ := List.mem_sublistsLen.mp hmem2
    constructor
    · have : transactions ≠ [] := fun hc => by
        rw [hc] at ht
        simp at ht
      cases transactions with
      | nil => simp at ht
      | cons a l => simp
    · intro z hz
      exact item_count_of_mem_tx ht ((pysorted_perm t).subset (hsub.subset hz))
  · rw [if_neg hg] at hmem2
    simp at hmem2

theorem frequent_1_get_eq {transactions : List (List α)} {ms : ℚ} {z : α}
    (h1 : 1 ≤ item_count transactions z)
    (h2 : min_support_count transactions ms ≤ (item_count transactions z : ℤ)) :
    frequent_1_get transactions ms z = item_count transactions z := by
  unfold frequent_1_get
  rw [if_pos]
  unfold find_frequent_1_itemsets
  rw [Finset.mem_filter]
  exact ⟨mem_flatMap_of_item_count_pos h1, h2⟩

theorem mem_find_frequent_pairs {transactions : List (List α)} {ms : ℚ}
    {e : List α × ℕ} (h : e ∈ find_frequent_pairs transactions ms) :
    ∃ x y : α, e.1 = [x, y] ∧ e.2 = pair_count transactions e.1 ∧
      min_support_count transactions ms ≤ (pair_count transactions e.1 : ℤ) := by
  unfold find_frequent_pairs at h
  rw [(List.perm_insertionSort _ _).mem_iff, List.mem_map] at h
  obtain ⟨pr, hpr, rfl⟩ := h
  rw [List.mem_filter] at hpr
  obtain ⟨hprd, hprf⟩ := hpr
  have hpro : pr ∈ pair_occurrences transactions := List.mem_dedup.mp hprd
  unfold pair_occurrences at hpro
  rw [List.mem_flatMap] at hpro
  obtain ⟨t, ht, hmem2⟩ := hpro
  by_cases hg : 2 ≤ t.length
  · rw [if_pos hg] at hmem2
    obtain ⟨-, hlen⟩ := List.mem_sublistsLen.mp hmem2
    obtain ⟨x, y, rfl⟩ := List.length_eq_two.mp hlen
    exact ⟨x, y, rfl, rfl, of_decide_eq_true hprf⟩
  · rw [if_neg hg] at hmem2
    simp at hmem2

end PairLemmas

section RuleLemmas

variable {α : Type} [LinearOrder α]

/-- The properties C1 asserts of one emitted rule: support and confidence
bounds, and confidence = support(pair)/support(antecedent) where
support(antecedent) is the antecedent's frequent-1 count over the number
of transactions. -/
def rule_ok (transactions : List (List α)) (ms : ℚ) (r : Rule α) : Prop :=
  0 ≤ r.support ∧ r.support ≤ 1 ∧ 0 ≤ r.confidence ∧ r.confidence ≤ 1 ∧
    r.confidence = r.support /
      ((frequent_1_get transactions ms r.antecedent : ℚ) / (transactions.length : ℚ))

theorem rule_direction_sound (N : ℚ) (pc : ℕ) (x y : α) (cx cy : ℕ) (mc : ℚ)
    (hN : 0 < N) (hpcN : (pc : ℚ) ≤ N) (hpccx : 0 < cx → pc ≤ cx) (hcy : 0 < cy) :
    ∃ rl, rule_direction N pc x y cx cy mc = some rl ∧
      ∀ r ∈ rl, r.antecedent = x ∧ r.support = (pc : ℚ) / N ∧
        r.confidence = (pc : ℚ) / (cx : ℚ) ∧
        0 ≤ r.support ∧ r.support ≤ 1 ∧ 0 ≤ r.confidence ∧ r.confidence ≤ 1 := by
  simp only [rule_direction]
  by_cases h1 : 0 < cx
  · rw [if_pos h1]
    by_cases h2 : mc ≤ (pc : ℚ) / (cx : ℚ)
    · rw [if_pos h2, if_neg (ne_of_gt hN)]
      have hcx2 : (0 : ℚ) < (cx : ℚ) := by exact_mod_cast h1
      have hcy2 : (0 : ℚ) < (cy : ℚ) := by exact_mod_cast hcy
      have hdenom : (0 : ℚ) < ((cx : ℚ) / N) * ((cy : ℚ) / N) := by positivity
      rw [if_neg (ne_of_gt hdenom)]
      refine ⟨_, rfl, ?_⟩
      intro r hr
      rw [List.mem_singleton] at hr
      subst hr
      refine ⟨rfl, rfl, rfl, by positivity, ?_, by positivity, ?_⟩
      · exact (div_le_one hN).mpr hpcN
      · exact (div_le_one hcx2).mpr (by exact_mod_cast hpccx h1)
    · rw [if_neg h2]
      exact ⟨[], rfl, by simp⟩
  · rw [if_neg h1]
    exact ⟨[], rfl, by simp⟩

theorem rules_fold_sound (transactions : List (List α)) (ms mc : ℚ)
    (hnd : ∀ t ∈ transactions, t.Nodup) :
    ∀ L : List (List α × ℕ),
      (∀ e ∈ L, e ∈ find_frequent_pairs transactions ms) →
      ∀ acc : List (Rule α), (∀ r ∈ acc, rule_ok transactions ms r) →
      ∃ rs, L.foldl (rules_step transactions ms mc) (some acc) = some rs ∧
        ∀ r ∈ rs, rule_ok transactions ms r := by
  intro L
  induction L with
  | nil =>
    intro _ acc hacc
    exact ⟨acc, rfl, hacc⟩
  | cons e L2 ih =>
    intro hmem acc hacc
    obtain ⟨x, y, he1, he2, hfreq⟩ := mem_find_frequent_pairs
      (hmem e (List.mem_cons_self e L2))
    have hmsc := one_le_min_support_count transactions ms
    have hpc1 : 1 ≤ pair_count transactions e.1 := by omega
    obtain ⟨hlen, hocc⟩ := pair_count_pos_facts hpc1
    have hx_in : x ∈ e.1 := by rw [he1]; simp
    have hy_in : y ∈ e.1 := by rw [he1]; simp
    have hicx := hocc x hx_in
    have hicy := hocc y hy_in
    have hpcx : pair_count transactions e.1 ≤ item_count transactions x :=
      pair_count_le_item_count hnd hx_in
    have hpcy : pair_count transactions e.1 ≤ item_count transactions y :=
      pair_count_le_item_count hnd hy_in
    have hfx : frequent_1_get transactions ms x = item_count transactions x :=
      frequent_1_get_eq hicx (by omega)
    have hfy : frequent_1_get transactions ms y = item_count transactions y :=
      frequent_1_get_eq hicy (by omega)
    have hcxpos : 0 < frequent_1_get transactions ms x := by omega
    have hcypos : 0 < frequent_1_get transactions ms y := by omega
    have hNpos : (0 : ℚ) < (transactions.length : ℚ) := by exact_mod_cast hlen
    have hpcN : ((pair_count transactions e.1 : ℕ) : ℚ) ≤ (transactions.length : ℚ) := by
      exact_mod_cast pair_count_le_length hnd e.1
    obtain ⟨rl1, hrl1, hgood1⟩ := rule_direction_sound (transactions.length : ℚ)
      (pair_count transactions e.1) x y (frequent_1_get transactions ms x)
      (frequent_1_get transactions ms y) mc hNpos hpcN (fun _ => by omega) hcypos
    obtain ⟨rl2, hrl2, hgood2⟩ := rule_direction_sound (transactions.length : ℚ)
      (pair_count transactions e.1) y x (frequent_1_get transactions ms y)
      (frequent_1_get transactions ms x) mc hNpos hpcN (fun _ => by omega) hcxpos
    have hNne : (transactions.length : ℚ) ≠ 0 := ne_of_gt hNpos
    have hruleok : ∀ (z : α) (rl : List (Rule α)),
        frequent_1_get transactions ms z = item_count transactions z →
        0 < frequent_1_get transactions ms z →
        (∀ r ∈ rl, r.antecedent = z ∧
          r.support = ((pair_count transactions e.1 : ℕ) : ℚ) / (transactions.length : ℚ) ∧
          r.confidence = ((pair_count transactions e.1 : ℕ) : ℚ) /
            ((frequent_1_get transactions ms z : ℕ) : ℚ) ∧
          0 ≤ r.support ∧ r.support ≤ 1 ∧ 0 ≤ r.confidence ∧ r.confidence ≤ 1) →
        ∀ r ∈ rl, rule_ok transactions ms r := by
      intro z rl hfz hzpos hall r hr
      obtain ⟨hant, hsup, hconf, hb1, hb2, hb3, hb4⟩ := hall r hr
      refine ⟨hb1, hb2, hb3, hb4, ?_⟩
      rw [hant, hsup, hconf]
      have hzne : ((frequent_1_get transactions ms z : ℕ) : ℚ) ≠ 0 := by
        exact_mod_cast Nat.pos_iff_ne_zero.mp hzpos
      field_simp
    have hstep : rules_step transactions ms mc (some acc) e = some (acc ++ rl1 ++ rl2) := by
      obtain ⟨e1, e2⟩ := e
      simp only at he1 he2
      subst he1
      subst he2
      simp only [rules_step, Option.bind_eq_bind, Option.some_bind]
      rw [hrl1, hrl2]
      rfl
    rw [List.foldl_cons, hstep]
    apply ih (fun e2 he2 => hmem e2 (List.mem_cons_of_mem e he2))
    intro r hr
    rcases List.mem_append.mp hr with hr1 | hr2
    · rcases List.mem_append.mp hr1 with hra | hrb
      · exact hacc r hra
      · exact hruleok x rl1 hfx hcxpos hgood1 r hrb
    · exact hruleok y rl2 hfy hcypos hgood2 r hr2

end RuleLemmas

section Claims5

theorem c1ex_min_support :
    min_support_count ([[0, 1, 0, 1]] : List (List ℕ)) (1 / 2) = 1 := by
  simp only [min_support_count, pytrunc]
  norm_num

theorem c1ex_pairs : find_frequent_pairs ([[0, 1, 0, 1]] : List (List ℕ)) (1 / 2)
    = [([0, 1], 4), ([1, 1], 1), ([0, 0], 1)] := by
  simp only [find_frequent_pairs, c1ex_min_support]
  decide

theorem c1ex_get0 : frequent_1_get ([[0, 1, 0, 1]] : List (List ℕ)) (1 / 2) 0 = 2 := by
  simp only [frequent_1_get, find_frequent_1_itemsets, c1ex_min_support]
  decide

theorem c1ex_get1 : frequent_1_get ([[0, 1, 0, 1]] : List (List ℕ)) (1 / 2) 1 = 2 := by
  simp only [frequent_1_get, find_frequent_1_itemsets, c1ex_min_support]
  decide

theorem c1ex_rules : get_association_rules ([[0, 1, 0, 1]] : List (List ℕ)) (1 / 2) 2
    = some [⟨0, 1, 4, 2, 1⟩, ⟨1, 0, 4, 2, 1⟩] := by
  simp only [get_association_rules, rules_step, c1ex_pairs, c1ex_get0, c1ex_get1,
    List.foldl_cons, List.foldl_nil, Option.bind_eq_bind, Option.some_bind]
  norm_num [rule_direction]

/-- C1 counterexample: with a transaction that repeats items, an emitted
rule can have support and confidence above 1: on the single transaction
[0, 1, 0, 1] with min_support 1/2 and min_confidence 2, the rule 0 → 1
is emitted with support 4 and confidence 2. -/
theorem C1_rule_bounds_counterexample :
    ∃ rs, get_association_rules ([[0, 1, 0, 1]] : List (List ℕ)) (1 / 2) 2 = some rs ∧
      ∃ r ∈ rs, ¬(r.support ≤ 1 ∧ r.confidence ≤ 1) := by
  refine ⟨[⟨0, 1, 4, 2, 1⟩, ⟨1, 0, 4, 2, 1⟩], c1ex_rules,
    ⟨0, 1, 4, 2, 1⟩, List.mem_cons_self _ _, ?_⟩
  intro h
  have := h.1
  norm_num at this

/-- C1 amended: provided no transaction contains a repeated item,
get_association_rules succeeds and every emitted rule satisfies
0 ≤ support ≤ 1 and 0 ≤ confidence ≤ 1, with confidence equal to
support(pair)/support(antecedent) exactly, where support(antecedent) is
the antecedent's frequent-1-itemset count over the number of
transactions. -/
theorem C1_rule_bounds_nodup {α : Type} [LinearOrder α]
    (transactions : List (List α)) (minSupport minConfidence : ℚ)
    (hnd : ∀ t ∈ transactions, t.Nodup) :
    ∃ rs, get_association_rules transactions minSupport minConfidence = some rs ∧
      ∀ r ∈ rs, 0 ≤ r.support ∧ r.support ≤ 1 ∧
        0 ≤ r.confidence ∧ r.confidence ≤ 1 ∧
        r.confidence = r.support /
          ((frequent_1_get transactions minSupport r.antecedent : ℚ) /
            (transactions.length : ℚ)) := by
  obtain ⟨rs0, hfold, hgood⟩ := rules_fold_sound transactions minSupport minConfidence
    hnd (find_frequent_pairs transactions minSupport) (fun e he => he) [] (by simp)
  refine ⟨rs0.insertionSort (fun r1 r2 => r2.confidence ≤ r1.confidence), ?_, ?_⟩
  · simp only [get_association_rules, hfold]
    rfl
  · intro r hr
    exact hgood r ((List.perm_insertionSort _ rs0).mem_iff.mp hr)

/-- C1 witness: the amended theorem at the duplicate-free transaction
list [[0, 1]] with min_support 0 and min_confidence 1/2. -/
theorem C1_rule_bounds_nodup_witness :
    ∃ rs, get_association_rules ([[0, 1]] : List (List ℕ)) 0 (1 / 2) = some rs ∧
      ∀ r ∈ rs, 0 ≤ r.support ∧ r.support ≤ 1 ∧
        0 ≤ r.confidence ∧ r.confidence ≤ 1 ∧
        r.confidence = r.support /
          ((frequent_1_get ([[0, 1]] : List (List ℕ)) 0 r.antecedent : ℚ) /
            (([[0, 1]] : List (List ℕ)).length : ℚ)) :=
  C1_rule_bounds_nodup ([[0, 1]] : List (List ℕ)) 0 (1 / 2) (by decide)

theorem c4ex_min_support :
    min_support_count ([[0, 0, 1], [2], [2]] : List (List ℕ)) (2 / 3) = 2 := by
  simp only [min_support_count, pytrunc]
  norm_num

theorem c4ex_pairs : find_frequent_pairs ([[0, 0, 1], [2], [2]] : List (List ℕ)) (2 / 3)
    = [([0, 1], 2)] := by
  simp only [find_frequent_pairs, c4ex_min_support]
  decide

theorem c4ex_get0 : frequent_1_get ([[0, 0, 1], [2], [2]] : List (List ℕ)) (2 / 3) 0 = 2 := by
  simp only [frequent_1_get, find_frequent_1_itemsets, c4ex_min_support]
  decide

theorem c4ex_get1 : frequent_1_get ([[0, 0, 1], [2], [2]] : List (List ℕ)) (2 / 3) 1 = 0 := by
  simp only [frequent_1_get, find_frequent_1_itemsets, c4ex_min_support]
  decide

/-- C4: the claim fails on the code: the guard checks only the
antecedent's frequent-1 count, while the lift denominator also divides
by the consequent's count.  On the non-empty transaction list
[[0,0,1],[2],[2]] with min_support 2/3 and min_confidence 1/2 the pair
(0, 1) is frequent and the direction 0 → 1 passes the confidence filter,
but item 1 has frequent-1 count 0, so the lift computation divides by
zero (modelled by none, an uncaught ZeroDivisionError in Python). -/
theorem C4_lift_division_by_zero :
    get_association_rules ([[0, 0, 1], [2], [2]] : List (List ℕ)) (2 / 3) (1 / 2)
      = none := by
  simp only [get_association_rules, rules_step, c4ex_pairs, c4ex_get0, c4ex_get1,
    List.foldl_cons, List.foldl_nil, Option.bind_eq_bind, Option.some_bind]
  norm_num [rule_direction]

end Claims5

section PathLemmas

variable {α : Type} [DecidableEq α]

theorem walk_length_pos {g : ProductGraph α} {a w : α} {q : List α}
    (h : IsWalk g a w q) : 1 ≤ q.length := by
  obtain ⟨h1, -, -⟩ := h
  cases q with
  | nil => simp at h1
  | cons x l => simp

theorem walk_single (g : ProductGraph α) (a : α) : IsWalk g a a [a] := by
  refine ⟨rfl, rfl, ?_⟩
  simp

theorem walk_snoc {g : ProductGraph α} {a v z : α} {p : List α}
    (h : IsWalk g a v p) (hadj : adjacent g v z) : IsWalk g a z (p ++ [z]) := by
  obtain ⟨h1, h2, h3⟩ := h
  have hne : p ≠ [] := by
    intro hc
    rw [hc] at h1
    simp at h1
  refine ⟨?_, ?_, ?_⟩
  · rw [List.head?_append_of_ne_nil _ hne]
    exact h1
  · rw [List.getLast?_concat]
  · rw [List.chain'_append]
    refine ⟨h3, List.chain'_singleton z, ?_⟩
    intro x hx y hy
    simp at hy
    rw [h2] at hx
    simp at hx
    rw [← hx, ← hy]
    exact hadj

theorem walk_uncons {g : ProductGraph α} {u w : α} {r : List α}
    (h : IsWalk g u w r) (hne : u ≠ w) :
    ∃ z r3, r = u :: z :: r3 ∧ adjacent g u z ∧ IsWalk g z w (z :: r3) := by
  obtain ⟨h1, h2, h3⟩ := h
  match r with
  | [] => simp at h1
  | [x] =>
    simp at h1 h2
    exact absurd (h1.symm.trans h2) hne
  | x :: z :: r3 =>
    simp at h1
    subst h1
    rw [List.getLast?_cons_cons] at h2
    rw [List.chain'_cons] at h3
    exact ⟨z, r3, rfl, h3.1, rfl, h2, h3.2⟩

/-- From a visited vertex u with a path to an unvisited w, the queue
holds an unvisited entry strictly closer to w along that path (as long
as every visited vertex has all its neighbors visited or enqueued). -/
theorem escape_lemma {g : ProductGraph α} {visited : Finset α}
    {queue : List (α × List α)}
    (hH : ∀ u ∈ visited, ∀ z : α, adjacent g u z → z ∈ visited ∨ ∃ e ∈ queue, e.1 = z) :
    ∀ (n : ℕ) (u w : α) (r : List α), r.length ≤ n → u ∈ visited → w ∉ visited →
      IsWalk g u w r →
      ∃ e ∈ queue, e.1 ∉ visited ∧ ∃ rw2, IsWalk g e.1 w rw2 ∧ rw2.length + 1 ≤ r.length := by
  intro n
  induction n with
  | zero =>
    intro u w r hlen _ _ hwalk
    have := walk_length_pos hwalk
    omega
  | succ n ih =>
    intro u w r hlen hu hw hwalk
    have hne : u ≠ w := fun hc => hw (hc ▸ hu)
    obtain ⟨z, r3, rfl, hadj, hwalk2⟩ := walk_uncons hwalk hne
    by_cases hz : z ∈ visited
    · obtain ⟨e, he, hout, rw2, hrw2, hlen2⟩ := ih z w (z :: r3)
        (by simp at hlen ⊢; omega) hz hw hwalk2
      exact ⟨e, he, hout, rw2, hrw2, by simp at hlen2 ⊢; omega⟩
    · rcases hH u hu z hadj with hc | ⟨e, he, hez⟩
      · exact absurd hc hz
      · exact ⟨e, he, hez ▸ hz, z :: r3, hez ▸ hwalk2, by simp⟩

theorem level_tail {v : α} {p : List α} {rest : List (α × List α)}
    (h : ∃ d A B, (v, p) :: rest = A ++ B ∧ (∀ e ∈ A, e.2.length = d + 1) ∧
      (∀ e ∈ B, e.2.length = d + 2)) :
    ∃ d A B, rest = A ++ B ∧ (∀ e ∈ A, e.2.length = d + 1) ∧
      (∀ e ∈ B, e.2.length = d + 2) := by
  obtain ⟨d, A, B, hq, hA, hB⟩ := h
  cases A with
  | nil =>
    cases B with
    | nil => simp at hq
    | cons hd tl =>
      simp at hq
      refine ⟨d + 1, tl, [], by simp [hq.2], ?_, by simp⟩
      intro e he
      have h4 := hB e (List.mem_cons_of_mem hd he)
      omega
  | cons hd A2 =>
    rw [List.cons_append] at hq
    rw [List.cons.injEq] at hq
    exact ⟨d, A2, B, hq.2, fun e he => hA e (List.mem_cons_of_mem hd he), hB⟩

theorem level_lower {v : α} {p : List α} {rest : List (α × List α)}
    (h : ∃ d A B, (v, p) :: rest = A ++ B ∧ (∀ e ∈ A, e.2.length = d + 1) ∧
      (∀ e ∈ B, e.2.length = d + 2)) :
    ∀ e ∈ (v, p) :: rest, p.length ≤ e.2.length := by
  obtain ⟨d, A, B, hq, hA, hB⟩ := h
  have hfront : p.length = d + 1 ∨ (p.length = d + 2 ∧ A = []) := by
    cases A with
    | nil =>
      cases B with
      | nil => simp at hq
      | cons hd tl =>
        simp at hq
        right
        refine ⟨?_, rfl⟩
        have := hB hd (List.mem_cons_self hd tl)
        rw [← hq.1] at this
        exact this
    | cons hd A2 =>
      rw [List.cons_append, List.cons.injEq] at hq
      left
      have := hA hd (List.mem_cons_self hd A2)
      rw [← hq.1] at this
      exact this
  intro e he
  rw [hq] at he
  rcases hfront with h3 | ⟨h3, hAnil⟩
  · rcases List.mem_append.mp he with h1 | h1
    · have := hA e h1
      omega
    · have := hB e h1
      omega
  · rcases List.mem_append.mp he with h1 | h1
    · rw [hAnil] at h1
      simp at h1
    · have := hB e h1
      omega

theorem level_upper {v : α} {p : List α} {rest : List (α × List α)}
    (h : ∃ d A B, (v, p) :: rest = A ++ B ∧ (∀ e ∈ A, e.2.length = d + 1) ∧
      (∀ e ∈ B, e.2.length = d + 2)) :
    ∀ e ∈ (v, p) :: rest, e.2.length ≤ p.length + 1 := by
  obtain ⟨d, A, B, hq, hA, hB⟩ := h
  have hfront : p.length = d + 1 ∨ (p.length = d + 2 ∧ A = []) := by
    cases A with
    | nil =>
      cases B with
      | nil => simp at hq
      | cons hd tl =>
        simp at hq
        right
        refine ⟨?_, rfl⟩
        have := hB hd (List.mem_cons_self hd tl)
        rw [← hq.1] at this
        exact this
    | cons hd A2 =>
      rw [List.cons_append, List.cons.injEq] at hq
      left
      have := hA hd (List.mem_cons_self hd A2)
      rw [← hq.1] at this
      exact this
  intro e he
  rw [hq] at he
  rcases hfront with h3 | ⟨h3, hAnil⟩
  · rcases List.mem_append.mp he with h1 | h1
    · have := hA e h1
      omega
    · have := hB e h1
      omega
  · rcases List.mem_append.mp he with h1 | h1
    · rw [hAnil] at h1
      simp at h1
    · have := hB e h1
      omega

end PathLemmas

section Claims6

variable {α : Type} [DecidableEq α]

theorem find_path_loop_min (g : ProductGraph α) (a b : α) :
    ∀ (visited : Finset α) (queue : List (α × List α)),
      (∀ e ∈ queue, IsWalk g a e.1 e.2) →
      (∃ d A B, queue = A ++ B ∧ (∀ e ∈ A, e.2.length = d + 1) ∧
        (∀ e ∈ B, e.2.length = d + 2)) →
      b ∉ visited →
      (∀ u ∈ visited, ∀ z : α, adjacent g u z → z ∈ visited ∨ ∃ e ∈ queue, e.1 = z) →
      (∀ w : α, w ∉ visited → ∀ q, IsWalk g a w q →
        ∃ e ∈ queue, ∃ rw2, IsWalk g e.1 w rw2 ∧ e.2.length + rw2.length ≤ q.length + 1) →
      ∀ p, find_path_loop g b visited queue = some p →
        IsWalk g a b p ∧ ∀ q, IsWalk g a b q → p.length ≤ q.length := by
  intro visited queue
  induction visited, queue using find_path_loop.induct g b with
  | case1 visited =>
    intro _ _ _ _ _ p hp
    rw [find_path_loop.eq_def] at hp
    simp at hp
  | case2 visited p0 rest =>
    intro hW hL hb hH hG p hp
    have heq : find_path_loop g b visited ((b, p0) :: rest) = some p0 := by
      rw [find_path_loop.eq_def]
      simp
    rw [heq, Option.some_inj] at hp
    subst hp
    have hwalk : IsWalk g a b p0 := hW (b, p0) (List.mem_cons_self _ _)
    refine ⟨hwalk, ?_⟩
    intro q hq
    obtain ⟨e, he, rw2, hrw2, hlen⟩ := hG b hb q hq
    have hlow := level_lower hL e he
    have hpos := walk_length_pos hrw2
    simp at hlow
    omega
  | case3 visited v p0 rest hvb hv ih =>
    intro hW hL hb hH hG p hp
    have heq : find_path_loop g b visited ((v, p0) :: rest)
        = find_path_loop g b visited rest := by
      rw [find_path_loop.eq_def]
      simp [hvb, hv]
    rw [heq] at hp
    have hW2 : ∀ e ∈ rest, IsWalk g a e.1 e.2 :=
      fun e he => hW e (List.mem_cons_of_mem _ he)
    have hL2 := level_tail hL
    have hH2 : ∀ u ∈ visited, ∀ z : α, adjacent g u z →
        z ∈ visited ∨ ∃ e ∈ rest, e.1 = z := by
      intro u hu z hadj
      rcases hH u hu z hadj with h1 | ⟨e, he, hez⟩
      · exact Or.inl h1
      · rcases List.mem_cons.mp he with rfl | he2
        · exact Or.inl (hez ▸ hv)
        · exact Or.inr ⟨e, he2, hez⟩
    have hG2 : ∀ w : α, w ∉ visited → ∀ q, IsWalk g a w q →
        ∃ e ∈ rest, ∃ rw2, IsWalk g e.1 w rw2 ∧ e.2.length + rw2.length ≤ q.length + 1 := by
      intro w hw q hq
      obtain ⟨e, he, rw2, hrw2, hlen⟩ := hG w hw q hq
      rcases List.mem_cons.mp he with rfl | he2
      · -- consumed witness: escape through the visited front vertex
        obtain ⟨e2, he2, hout, rw3, hrw3, hlen3⟩ :=
          escape_lemma hH rw2.length v w rw2 (le_refl _) hv hw hrw2
        have hup := level_upper hL e2 he2
        rcases List.mem_cons.mp he2 with rfl | he3
        · exact absurd hv hout
        · exact ⟨e2, he3, rw3, hrw3, by simp at hup hlen ⊢; omega⟩
      · exact ⟨e, he2, rw2, hrw2, hlen⟩
    exact ih hW2 hL2 hb hH2 hG2 p hp
  | case4 visited v p0 rest hvb hv ih =>
    intro hW hL hb hH hG p hp
    have hfrontwalk : IsWalk g a v p0 := hW (v, p0) (List.mem_cons_self _ _)
    set NE := List.map (fun z => (z, p0 ++ [z]))
      (List.filter (fun z => decide (z ∉ visited)) (akeys (get_neighbors g v))) with hNE
    have heq : find_path_loop g b visited ((v, p0) :: rest)
        = find_path_loop g b (insert v visited) (rest ++ NE) := by
      rw [find_path_loop.eq_def]
      simp [hvb, hv, hNE]
    rw [heq] at hp
    have hNEfacts : ∀ e ∈ NE, IsWalk g a e.1 e.2 ∧ e.2.length = p0.length + 1 ∧
        adjacent g v e.1 ∧ e.1 ∉ visited := by
      intro e he
      rw [hNE, List.mem_map] at he
      obtain ⟨z, hz, rfl⟩ := he
      rw [List.mem_filter] at hz
      refine ⟨walk_snoc hfrontwalk hz.1, by simp, hz.1, of_decide_eq_true hz.2⟩
    have hW2 : ∀ e ∈ rest ++ NE, IsWalk g a e.1 e.2 := by
      intro e he
      rcases List.mem_append.mp he with h1 | h1
      · exact hW e (List.mem_cons_of_mem _ h1)
      · exact (hNEfacts e h1).1
    have hL2 : ∃ d A B, rest ++ NE = A ++ B ∧ (∀ e ∈ A, e.2.length = d + 1) ∧
        (∀ e ∈ B, e.2.length = d + 2) := by
      obtain ⟨d, A, B, hq, hA, hB⟩ := hL
      cases A with
      | nil =>
        cases B with
        | nil => simp at hq
        | cons hd tl =>
          simp at hq
          have hfront : p0.length = d + 2 := by
            have := hB hd (List.mem_cons_self hd tl)
            rw [← hq.1] at this
            exact this
          refine ⟨d + 1, tl, NE, by simp [hq.2], ?_, ?_⟩
          · intro e he
            have := hB e (List.mem_cons_of_mem hd he)
            omega
          · intro e he
            have := (hNEfacts e he).2.1
            omega
      | cons hd A2 =>
        rw [List.cons_append, List.cons.injEq] at hq
        have hfront : p0.length = d + 1 := by
          have := hA hd (List.mem_cons_self hd A2)
          rw [← hq.1] at this
          exact this
        refine ⟨d, A2, B ++ NE, by rw [hq.2, List.append_assoc], ?_, ?_⟩
        · intro e he
          exact hA e (List.mem_cons_of_mem hd he)
        · intro e he
          rcases List.mem_append.mp he with h1 | h1
          · exact hB e h1
          · have := (hNEfacts e h1).2.1
            omega
    have hb2 : b ∉ insert v visited := by
      rw [Finset.mem_insert]
      push_neg
      exact ⟨fun hc => hvb hc.symm, hb⟩
    have hH2 : ∀ u ∈ insert v visited, ∀ z : α, adjacent g u z →
        z ∈ insert v visited ∨ ∃ e ∈ rest ++ NE, e.1 = z := by
      intro u hu z hadj
      rcases Finset.mem_insert.mp hu with rfl | hu2
      · by_cases hz : z ∈ visited
        · exact Or.inl (Finset.mem_insert_of_mem hz)
        · refine Or.inr ⟨(z, p0 ++ [z]), ?_, rfl⟩
          rw [List.mem_append]
          refine Or.inr ?_
          rw [hNE, List.mem_map]
          exact ⟨z, List.mem_filter.mpr ⟨hadj, decide_eq_true hz⟩, rfl⟩
      · rcases hH u hu2 z hadj with h1 | ⟨e, he, hez⟩
        · exact Or.inl (Finset.mem_insert_of_mem h1)
        · rcases List.mem_cons.mp he with rfl | he2
          · exact Or.inl (hez ▸ Finset.mem_insert_self v visited)
          · exact Or.inr ⟨e, List.mem_append_left _ he2, hez⟩
    have hup2 : ∀ e ∈ rest ++ NE, e.2.length ≤ p0.length + 1 := by
      intro e he
      rcases List.mem_append.mp he with h1 | h1
      · exact level_upper hL e (List.mem_cons_of_mem _ h1)
      · exact le_of_eq (hNEfacts e h1).2.1
    have hG2 : ∀ w : α, w ∉ insert v visited → ∀ q, IsWalk g a w q →
        ∃ e ∈ rest ++ NE, ∃ rw2, IsWalk g e.1 w rw2 ∧
          e.2.length + rw2.length ≤ q.length + 1 := by
      intro w hw q hq
      have hw0 : w ∉ visited := fun hc => hw (Finset.mem_insert_of_mem hc)
      obtain ⟨e, he, rw2, hrw2, hlen⟩ := hG w hw0 q hq
      rcases List.mem_cons.mp he with rfl | he2
      · obtain ⟨e2, he2, hout, rw3, hrw3, hlen3⟩ := escape_lemma hH2 rw2.length v w rw2
          (le_refl _) (Finset.mem_insert_self v visited) hw hrw2
        have hup := hup2 e2 he2
        exact ⟨e2, he2, rw3, hrw3, by simp at hup hlen ⊢; omega⟩
      · exact ⟨e, List.mem_append_left _ he2, rw2, hrw2, hlen⟩
    exact ih hW2 hL2 hb2 hH2 hG2 p hp


/-- C5: find_path returns none exactly when is_connected is false (also
for unknown endpoints), and any returned path is a path of the graph
whose edge count equals the minimum edge count over all paths. -/
theorem C5_find_path_shortest {α : Type} [DecidableEq α] (g : ProductGraph α) (a b : α) :
    (find_path g a b = none ↔ is_connected g a b = false) ∧
    (∀ p, find_path g a b = some p →
      IsWalk g a b p ∧ p.length - 1 = dist_edges g a b) := by
  constructor
  · cases h : find_path g a b <;> simp [is_connected, h]
  · intro p hp
    unfold find_path at hp
    by_cases h1 : a ∉ get_all_nodes g
    · rw [if_pos h1] at hp
      simp at hp
    rw [if_neg h1] at hp
    by_cases h2 : b ∉ get_all_nodes g
    · rw [if_pos h2] at hp
      simp at hp
    rw [if_neg h2] at hp
    have hmain := find_path_loop_min g a b ∅ [(a, [a])]
      (by
        intro e he
        simp at he
        rw [he]
        exact walk_single g a)
      ⟨0, [(a, [a])], [], by simp, by
        intro e he
        simp at he
        rw [he]
        simp, by simp⟩
      (by simp)
      (by
        intro u hu
        simp at hu)
      (by
        intro w hw q hq
        refine ⟨(a, [a]), List.mem_singleton_self _, q, hq, by simp; omega⟩)
      p hp
    obtain ⟨hwalk, hmin⟩ := hmain
    refine ⟨hwalk, ?_⟩
    have hpos := walk_length_pos hwalk
    have hmem : (p.length - 1) ∈ walk_lengths g a b := ⟨p, hwalk, by omega⟩
    have hinf : ∃ q, IsWalk g a b q ∧ q.length = dist_edges g a b + 1 :=
      Nat.sInf_mem (Set.nonempty_of_mem hmem)
    obtain ⟨q, hq, hqlen⟩ := hinf
    have hle : dist_edges g a b ≤ p.length - 1 := Nat.sInf_le hmem
    have hge := hmin q hq
    omega

theorem c5ex_eval : find_path (add_edge (emptyGraph : ProductGraph ℕ) 0 1 1) 0 1
    = some [0, 1] := by
  rw [find_path, if_neg (by decide), if_neg (by decide)]
  rw [find_path_loop.eq_def]
  show find_path_loop (add_edge (emptyGraph : ProductGraph ℕ) 0 1 1) 1
    (insert 0 ∅) [(1, [0, 1])] = some [0, 1]
  rw [find_path_loop.eq_def]
  simp

/-- C5 witness: the theorem applied to a concrete two-node graph where
find_path 0 1 returns the one-edge path. -/
theorem C5_find_path_shortest_witness :
    IsWalk (add_edge (emptyGraph : ProductGraph ℕ) 0 1 1) 0 1 [0, 1] ∧
    ([0, 1] : List ℕ).length - 1
      = dist_edges (add_edge (emptyGraph : ProductGraph ℕ) 0 1 1) 0 1 :=
  (C5_find_path_shortest (add_edge (emptyGraph : ProductGraph ℕ) 0 1 1) 0 1).2
    [0, 1] c5ex_eval

end Claims6

end BasketAnalysis
